import Mathlib

/-!
# Verification of the GPT-2 BPE tokenizer (`src/Targets/GPT2/BPE.hpp`)

Shallow embedding of the `BPE` class: byte strings and codepoint strings are
`List ℕ`, the `std::unordered_map` members are association lists whose `insert`
keeps the existing binding (the C++ `insert` member never overwrites), and
fallible operations (`at`, `stoi`, invalid UTF-8) return `Option`.
-/

set_option linter.unusedVariables false
set_option maxRecDepth 20000

namespace BPE

/-- A byte string (`std::string`): each element is one byte, `< 256`. -/
abbrev Str := List ℕ

/-- A wide string (`std::wstring`): each element is one codepoint. -/
abbrev WStr := List ℕ

/-- Lookup in an association list: the value of the first entry with the given
key, as `unordered_map::at` / `find` (which return the unique stored binding). -/
def alFind {α β : Type} [DecidableEq α] : List (α × β) → α → Option β
  | [], _ => none
  | (k, v) :: t, a => if k = a then some v else alFind t a

/-- `unordered_map::insert`: inserts only when the key is absent; an existing
binding is kept unchanged (C++ `insert` does not overwrite). -/
def alInsert {α β : Type} [DecidableEq α] (m : List (α × β)) (k : α) (v : β) :
    List (α × β) :=
  if (alFind m k).isSome then m else m ++ [(k, v)]

@[simp] theorem alFind_nil {α β : Type} [DecidableEq α] (a : α) :
    alFind ([] : List (α × β)) a = none := rfl

@[simp] theorem alFind_cons {α β : Type} [DecidableEq α] (k : α) (v : β) (t : List (α × β)) (a : α) :
    alFind ((k, v) :: t) a = if k = a then some v else alFind t a := rfl

theorem alFind_append {α β : Type} [DecidableEq α] (l₁ l₂ : List (α × β)) (a : α) :
    alFind (l₁ ++ l₂) a =
      (match alFind l₁ a with
       | some w => some w
       | none => alFind l₂ a) := by
  induction l₁ with
  | nil => simp [alFind]
  | cons p t ih =>
    obtain ⟨k, v⟩ := p
    by_cases h : k = a <;> simp [alFind, h, ih]

theorem alFind_alInsert {α β : Type} [DecidableEq α] (m : List (α × β)) (k : α) (v : β) (a : α) :
    alFind (alInsert m k v) a =
      (match alFind m a with
       | some w => some w
       | none => if k = a then some v else none) := by
  unfold alInsert
  cases hm : alFind m k with
  | some w =>
    simp only [hm, Option.isSome_some, if_pos]
    cases ha : alFind m a with
    | some u => simp
    | none =>
      by_cases h : k = a
      · subst h; rw [hm] at ha; cases ha
      · simp [h]
  | none =>
    simp only [hm, Option.isSome_none, Bool.false_eq_true, if_false]
    rw [alFind_append]
    cases ha : alFind m a with
    | some u => rfl
    | none => by_cases h : k = a <;> simp [alFind, h]

/-! ## UTF-8 conversion (`utf8ToWString` / `wstringToUTF8`)

The bit operations of the source are rendered arithmetically: every mask in the
code is a low-bit mask (`& 0x3f` = `% 64`, `& 0x1f` = `% 32`, `& 0x0f` = `% 16`,
`& 0x07` = `% 8`), every shift a multiplication/division by a power of two, and
every `|` combines disjoint bit ranges, so it is `+`. -/

/-- `BPE::wstringToUTF8`: encode each codepoint to UTF-8 bytes.  A codepoint
above `0x10ffff` falls through all four branches and emits nothing. -/
def wstringToUTF8 : WStr → Str
  | [] => []
  | wc :: t =>
    (if wc ≤ 0x7f then [wc]
     else if wc ≤ 0x7ff then [0xc0 + (wc / 64) % 32, 0x80 + wc % 64]
     else if wc ≤ 0xffff then
       [0xe0 + (wc / 4096) % 16, 0x80 + (wc / 64) % 64, 0x80 + wc % 64]
     else if wc ≤ 0x10ffff then
       [0xf0 + (wc / 262144) % 8, 0x80 + (wc / 4096) % 64,
        0x80 + (wc / 64) % 64, 0x80 + wc % 64]
     else []) ++ wstringToUTF8 t

/-- `BPE::utf8ToWString`: decode UTF-8 bytes to codepoints.  A leading byte
above `0xf7` throws (`none`).  Continuation bytes read at or past the end of
the string are the NUL byte `0` (`std::string::operator[]` at `size()`), and
the index then jumps past the end, which stops the loop: `List.getD _ _ 0`
and `List.drop` model both. -/
def utf8ToWString : Str → Option WStr
  | [] => some []
  | ch :: t =>
    if ch ≤ 0x7f then (utf8ToWString t).map (ch :: ·)
    else if ch ≤ 0xdf then
      (utf8ToWString (t.drop 1)).map
        (((ch % 32) * 64 + t.getD 0 0 % 64) :: ·)
    else if ch ≤ 0xef then
      (utf8ToWString (t.drop 2)).map
        (((ch % 16) * 4096 + (t.getD 0 0 % 64) * 64 + t.getD 1 0 % 64) :: ·)
    else if ch ≤ 0xf7 then
      (utf8ToWString (t.drop 3)).map
        (((ch % 8) * 262144 + (t.getD 0 0 % 64) * 4096 +
          (t.getD 1 0 % 64) * 64 + t.getD 2 0 % 64) :: ·)
    else none
  termination_by s => s.length
  decreasing_by
    all_goals simp [List.length_drop]
    all_goals omega

@[simp] theorem wstringToUTF8_nil : wstringToUTF8 [] = [] := rfl

theorem wstringToUTF8_append (a b : WStr) :
    wstringToUTF8 (a ++ b) = wstringToUTF8 a ++ wstringToUTF8 b := by
  induction a with
  | nil => simp [wstringToUTF8]
  | cons c t ih => simp [wstringToUTF8, ih]

/-- Every byte emitted by `wstringToUTF8` is a byte value (`< 256`). -/
theorem wstringToUTF8_lt_256 (w : WStr) : ∀ b ∈ wstringToUTF8 w, b < 256 := by
  induction w with
  | nil => simp [wstringToUTF8]
  | cons c t ih =>
    intro b hb
    rw [wstringToUTF8, List.mem_append] at hb
    rcases hb with hb | hb
    · split at hb <;> try (split at hb) <;> try (split at hb) <;> try (split at hb)
      all_goals simp_all
      all_goals omega
    · exact ih b hb

/-- The encoding of a codepoint `≤ 0x10ffff` is nonempty. -/
theorem wstringToUTF8_single_ne_nil (c : ℕ) (h : c ≤ 0x10ffff) :
    wstringToUTF8 [c] ≠ [] := by
  rw [wstringToUTF8]
  split <;> try split <;> try split <;> try split
  all_goals simp_all

/-- Decoding peels off one encoded codepoint at a time: `utf8ToWString` is a
left inverse of `wstringToUTF8` on codepoints `≤ 0x10ffff`, coherently with any
continuation of the byte stream. -/
theorem utf8ToWString_encOne (c : ℕ) (hc : c ≤ 0x10ffff) (t : Str) :
    utf8ToWString (wstringToUTF8 [c] ++ t) = (utf8ToWString t).map (c :: ·) := by
  rw [wstringToUTF8]
  by_cases h1 : c ≤ 0x7f
  · simp only [if_pos h1, List.append_nil, List.cons_append, List.nil_append]
    rw [utf8ToWString, if_pos h1]
    simp
  · by_cases h2 : c ≤ 0x7ff
    · simp only [if_neg h1, if_pos h2, List.append_nil, List.cons_append, List.nil_append]
      rw [utf8ToWString]
      have hb0 : ¬ (0xc0 + (c / 64) % 32 ≤ 0x7f) := by omega
      have hb1 : 0xc0 + (c / 64) % 32 ≤ 0xdf := by omega
      simp only [if_neg hb0, if_pos hb1, List.drop_succ_cons, List.drop_zero, List.getD_cons_zero]
      have : (0xc0 + c / 64 % 32) % 32 * 64 + (0x80 + c % 64) % 64 = c := by omega
      rw [this]
      simp
    · by_cases h3 : c ≤ 0xffff
      · simp only [if_neg h1, if_neg h2, if_pos h3, List.append_nil, List.cons_append,
          List.nil_append]
        rw [utf8ToWString]
        have hb0 : ¬ (0xe0 + (c / 4096) % 16 ≤ 0x7f) := by omega
        have hb1 : ¬ (0xe0 + (c / 4096) % 16 ≤ 0xdf) := by omega
        have hb2 : 0xe0 + (c / 4096) % 16 ≤ 0xef := by omega
        simp only [if_neg hb0, if_neg hb1, if_pos hb2, List.drop_succ_cons, List.drop_zero,
          List.getD_cons_zero, List.getD_cons_succ]
        have : (0xe0 + c / 4096 % 16) % 16 * 4096 + (0x80 + c / 64 % 64) % 64 * 64 +
            (0x80 + c % 64) % 64 = c := by omega
        rw [this]
        simp
      · have h4 : c ≤ 0x10ffff := hc
        simp only [if_neg h1, if_neg h2, if_neg h3, if_pos h4, List.append_nil, List.cons_append,
          List.nil_append]
        rw [utf8ToWString]
        have hb0 : ¬ (0xf0 + (c / 262144) % 8 ≤ 0x7f) := by omega
        have hb1 : ¬ (0xf0 + (c / 262144) % 8 ≤ 0xdf) := by omega
        have hb2 : ¬ (0xf0 + (c / 262144) % 8 ≤ 0xef) := by omega
        have hb3 : 0xf0 + (c / 262144) % 8 ≤ 0xf7 := by omega
        simp only [if_neg hb0, if_neg hb1, if_neg hb2, if_pos hb3, List.drop_succ_cons,
          List.drop_zero, List.getD_cons_zero, List.getD_cons_succ]
        have : (0xf0 + c / 262144 % 8) % 8 * 262144 + (0x80 + c / 4096 % 64) % 64 * 4096 +
            (0x80 + c / 64 % 64) % 64 * 64 + (0x80 + c % 64) % 64 = c := by omega
        rw [this]
        simp

/-- `utf8ToWString` decodes `wstringToUTF8 w ++ t` by first recovering `w`. -/
theorem utf8ToWString_enc_append (w : WStr) (hw : ∀ c ∈ w, c ≤ 0x10ffff) (t : Str) :
    utf8ToWString (wstringToUTF8 w ++ t) = (utf8ToWString t).map (w ++ ·) := by
  induction w with
  | nil => simp [wstringToUTF8]
  | cons c w' ih =>
    have hc : c ≤ 0x10ffff := hw c (by simp)
    have hw' : ∀ x ∈ w', x ≤ 0x10ffff := fun x hx => hw x (by simp [hx])
    have hsplit : wstringToUTF8 (c :: w') = wstringToUTF8 [c] ++ wstringToUTF8 w' := by
      rw [show c :: w' = [c] ++ w' from rfl, wstringToUTF8_append]
    rw [hsplit, List.append_assoc, utf8ToWString_encOne c hc, ih hw']
    cases utf8ToWString t <;> simp

/-- Round trip at the string level. -/
theorem utf8ToWString_wstringToUTF8 (w : WStr) (hw : ∀ c ∈ w, c ≤ 0x10ffff) :
    utf8ToWString (wstringToUTF8 w) = some w := by
  have := utf8ToWString_enc_append w hw []
  simpa [utf8ToWString] using this

/-- An all-ASCII byte string is its own codepoint sequence under encoding. -/
theorem wstringToUTF8_ascii (s : Str) (hs : ∀ b ∈ s, b ≤ 0x7f) :
    wstringToUTF8 s = s := by
  induction s with
  | nil => rfl
  | cons b t ih =>
    have hb : b ≤ 0x7f := hs b (by simp)
    rw [wstringToUTF8, if_pos hb, ih fun x hx => hs x (by simp [hx])]
    rfl

/-! ## `BPE::bytesToUnicode` — the byte ↔ codepoint alphabet -/

/-- One printable range of `bytesToUnicode`'s `insertRange`: bytes `start..stop`
are mapped to the identically-valued codepoints. -/
def insertRange (m : List (ℕ × ℕ)) (start stop : ℕ) : List (ℕ × ℕ) :=
  (List.range' start (stop + 1 - start)).foldl (fun acc c => alInsert acc c c) m

/-- The `m_b2u` table: printable ranges `'!'..'~'` (33–126), `'¡'..'¬'`
(161–172), `'®'..'ÿ'` (174–255) map identically; the remaining bytes are
assigned, in ascending byte order, the codepoints `256, 257, …`. -/
def b2uTable : List (ℕ × ℕ) :=
  let init := insertRange (insertRange (insertRange [] 33 126) 161 172) 174 255
  ((List.range 256).foldl
    (fun (p : List (ℕ × ℕ) × ℕ) b =>
      if (alFind p.1 b).isSome then p else (alInsert p.1 b (256 + p.2), p.2 + 1))
    (init, 0)).1

/-- The `m_u2b` table, built by inverting every entry of `m_b2u`. -/
def u2bTable : List (ℕ × ℕ) :=
  b2uTable.foldl (fun acc e => alInsert acc e.2 e.1) []

/-- `m_b2u.at`: byte to codepoint. -/
def b2u (b : ℕ) : Option ℕ := alFind b2uTable b

/-- `m_u2b.at`: codepoint to byte. -/
def u2b (c : ℕ) : Option ℕ := alFind u2bTable c

/-- A byte in one of the three printable ranges of `bytesToUnicode`. -/
def PrintableByte (b : ℕ) : Prop :=
  (33 ≤ b ∧ b ≤ 126) ∨ (161 ≤ b ∧ b ≤ 172) ∨ (174 ≤ b ∧ b ≤ 255)

instance (b : ℕ) : Decidable (PrintableByte b) := by
  unfold PrintableByte; infer_instance

/-! ### Literal views of the two tables

The fold that builds `m_b2u` only ever inserts fresh keys, so the table is,
as a list of entries, the three printable ranges followed by the non-printable
bytes paired with `256, 257, …` in order; `m_u2b` is the same list with every
entry swapped.  These equalities are proved by induction over the folds and
give a cheap-to-evaluate view of both tables. -/

/-- The non-printable bytes, in ascending order. -/
def npList : List ℕ := (List.range 256).filter (fun b => !(decide (PrintableByte b)))

/-- Explicit entry list of `m_b2u`. -/
def b2uLit : List (ℕ × ℕ) :=
  ((List.range' 33 94).map fun b => (b, b)) ++
  ((List.range' 161 12).map fun b => (b, b)) ++
  ((List.range' 174 82).map fun b => (b, b)) ++
  ((npList.enumFrom 0).map fun p => (p.2, 256 + p.1))

/-- Explicit entry list of `m_u2b`. -/
def u2bLit : List (ℕ × ℕ) := b2uLit.map fun e => (e.2, e.1)

theorem alFind_map_idRange (s n a : ℕ) :
    alFind ((List.range' s n).map fun b => (b, b)) a =
      if s ≤ a ∧ a < s + n then some a else none := by
  induction n generalizing s with
  | zero => rw [if_neg (by omega)]; rfl
  | succ n ih =>
    rw [List.range'_succ]
    simp only [List.map_cons, alFind_cons]
    by_cases h : s = a
    · subst h; rw [if_pos rfl, if_pos (by omega)]
    · rw [if_neg h, ih (s + 1)]
      by_cases h1 : s + 1 ≤ a ∧ a < s + 1 + n
      · rw [if_pos h1, if_pos (by omega)]
      · rw [if_neg h1, if_neg (by omega)]

/-- A fold of identity inserts over a range of fresh keys appends the range. -/
theorem foldl_idInsert_fresh (s n : ℕ) (m : List (ℕ × ℕ))
    (hf : ∀ c, s ≤ c → c < s + n → alFind m c = none) :
    (List.range' s n).foldl (fun acc c => alInsert acc c c) m =
      m ++ ((List.range' s n).map fun b => (b, b)) := by
  induction n generalizing s m with
  | zero => simp
  | succ n ih =>
    rw [List.range'_succ, List.map_cons, List.foldl_cons]
    have hs : alFind m s = none := hf s le_rfl (by omega)
    have hins : alInsert m s s = m ++ [(s, s)] := by
      unfold alInsert; rw [hs]; rfl
    rw [hins, ih (s + 1) (m ++ [(s, s)])]
    · simp
    · intro c hc1 hc2
      rw [alFind_append, hf c (by omega) (by omega)]
      simp [alFind]
      omega

theorem insertRange_eq (m : List (ℕ × ℕ)) (s e : ℕ)
    (hf : ∀ c, s ≤ c → c ≤ e → alFind m c = none) :
    insertRange m s e = m ++ ((List.range' s (e + 1 - s)).map fun b => (b, b)) := by
  unfold insertRange
  exact foldl_idInsert_fresh s (e + 1 - s) m fun c h1 h2 => hf c h1 (by omega)

/-- The contents of the table after the three printable `insertRange` calls. -/
def b2uInit : List (ℕ × ℕ) :=
  insertRange (insertRange (insertRange [] 33 126) 161 172) 174 255

theorem b2uInit_eq :
    b2uInit =
      ((List.range' 33 94).map fun b => (b, b)) ++
      ((List.range' 161 12).map fun b => (b, b)) ++
      ((List.range' 174 82).map fun b => (b, b)) := by
  have h1 : ∀ c, 161 ≤ c → c ≤ 172 →
      alFind ((List.range' 33 94).map fun b => (b, b)) c = none := by
    intro c hc1 hc2
    rw [alFind_map_idRange, if_neg (by omega)]
  have h2 : ∀ c, 174 ≤ c → c ≤ 255 →
      alFind (((List.range' 33 94).map fun b => (b, b)) ++
        ((List.range' 161 12).map fun b => (b, b))) c = none := by
    intro c hc1 hc2
    rw [alFind_append, alFind_map_idRange, alFind_map_idRange,
      if_neg (by omega), if_neg (by omega)]
  unfold b2uInit
  rw [insertRange_eq [] 33 126 (by intro c _ _; rfl), List.nil_append]
  rw [show (126 + 1 - 33 : ℕ) = 94 from rfl]
  rw [insertRange_eq _ 161 172 h1]
  rw [show (172 + 1 - 161 : ℕ) = 12 from rfl]
  rw [insertRange_eq _ 174 255 h2]

theorem alFind_b2uInit (a : ℕ) :
    alFind b2uInit a = if PrintableByte a then some a else none := by
  rw [b2uInit_eq, alFind_append, alFind_append, alFind_map_idRange, alFind_map_idRange,
    alFind_map_idRange]
  by_cases h1 : 33 ≤ a ∧ a < 33 + 94
  · rw [if_pos h1, if_pos (show PrintableByte a by unfold PrintableByte; omega)]
  · rw [if_neg h1]
    by_cases h2 : 161 ≤ a ∧ a < 161 + 12
    · rw [if_pos h2, if_pos (show PrintableByte a by unfold PrintableByte; omega)]
    · rw [if_neg h2]
      by_cases h3 : 174 ≤ a ∧ a < 174 + 82
      · rw [if_pos h3, if_pos (show PrintableByte a by unfold PrintableByte; omega)]
      · rw [if_neg h3, if_neg (show ¬ PrintableByte a by unfold PrintableByte; omega)]

/-- The byte-assignment fold appends one entry per fresh byte, with codepoints
numbered consecutively from `256 + n`. -/
theorem foldl_assign_entries (bs : List ℕ) :
    ∀ (m : List (ℕ × ℕ)) (n : ℕ), bs.Nodup →
    ((bs.foldl
        (fun (p : List (ℕ × ℕ) × ℕ) b =>
          if (alFind p.1 b).isSome then p else (alInsert p.1 b (256 + p.2), p.2 + 1))
        (m, n)).1) =
      m ++ (((bs.filter fun b => (alFind m b).isNone).enumFrom n).map
        fun p => (p.2, 256 + p.1)) := by
  induction bs with
  | nil => intro m n _; simp
  | cons b rest ih =>
    intro m n hnd
    have hnd' : rest.Nodup := (List.nodup_cons.mp hnd).2
    have hb : b ∉ rest := (List.nodup_cons.mp hnd).1
    rw [List.foldl_cons, List.filter_cons]
    cases hfind : alFind m b with
    | some v =>
      simp only [hfind, Option.isSome_some, if_pos, Option.isNone_some]
      rw [ih m n hnd']
      rfl
    | none =>
      simp only [hfind, Option.isSome_none, Bool.false_eq_true, if_false, Option.isNone_none]
      have hins : alInsert m b (256 + n) = m ++ [(b, 256 + n)] := by
        unfold alInsert; rw [hfind]; rfl
      rw [hins, ih (m ++ [(b, 256 + n)]) (n + 1) hnd']
      have hfilter :
          (rest.filter fun c => (alFind (m ++ [(b, 256 + n)]) c).isNone) =
            (rest.filter fun c => (alFind m c).isNone) := by
        apply List.filter_congr
        intro c hc
        have hcb : b ≠ c := fun h => hb (h ▸ hc)
        rw [alFind_append]
        cases alFind m c with
        | some v => rfl
        | none => simp [alFind, hcb]
      rw [hfilter]
      simp [List.enumFrom_cons]

/-- Entry-list view of `m_b2u`. -/
theorem b2uTable_eq : b2uTable = b2uLit := by
  have h0 : b2uTable =
      ((List.range 256).foldl
        (fun (p : List (ℕ × ℕ) × ℕ) b =>
          if (alFind p.1 b).isSome then p else (alInsert p.1 b (256 + p.2), p.2 + 1))
        (b2uInit, 0)).1 := rfl
  have h : b2uTable = b2uInit ++
      ((((List.range 256).filter fun b => (alFind b2uInit b).isNone).enumFrom 0).map
        fun p => (p.2, 256 + p.1)) := by
    rw [h0]
    exact foldl_assign_entries (List.range 256) b2uInit 0 (List.nodup_range 256)
  have hfilter : ((List.range 256).filter fun b => (alFind b2uInit b).isNone) = npList := by
    unfold npList
    apply List.filter_congr
    intro c hc
    rw [alFind_b2uInit]
    by_cases hp : PrintableByte c <;> simp [hp]
  rw [h, hfilter, b2uInit_eq]
  unfold b2uLit
  simp [List.append_assoc]

/-- The swap fold over a table with pairwise-distinct values maps every entry. -/
theorem foldl_swapInsert_fresh (t : List (ℕ × ℕ)) :
    ∀ acc : List (ℕ × ℕ), (t.map Prod.snd).Nodup →
    (∀ e ∈ t, alFind acc e.2 = none) →
    t.foldl (fun acc e => alInsert acc e.2 e.1) acc =
      acc ++ t.map (fun e => (e.2, e.1)) := by
  induction t with
  | nil => intro acc _ _; simp
  | cons e rest ih =>
    intro acc hnd hfresh
    rw [List.map_cons] at hnd
    have hnd2 := List.nodup_cons.mp hnd
    have hfe : alFind acc e.2 = none := hfresh e (by simp)
    have hins : alInsert acc e.2 e.1 = acc ++ [(e.2, e.1)] := by
      unfold alInsert; rw [hfe]; rfl
    have hfresh2 : ∀ x ∈ rest, alFind (acc ++ [(e.2, e.1)]) x.2 = none := by
      intro x hx
      rw [alFind_append, hfresh x (by simp [hx])]
      have hne : e.2 ≠ x.2 := by
        intro h
        exact hnd2.1 (h ▸ List.mem_map.mpr ⟨x, hx, rfl⟩)
      simp [alFind, hne]
    rw [List.foldl_cons, hins, ih (acc ++ [(e.2, e.1)]) hnd2.2 hfresh2]
    simp

/-- Entry-list view of `m_u2b`. -/
theorem u2bTable_eq : u2bTable = u2bLit := by
  unfold u2bTable u2bLit
  rw [b2uTable_eq, foldl_swapInsert_fresh b2uLit [] ?nd (by intro e _; rfl)]
  · simp
  case nd => decide

/-! ## The pretokenizer (`BPE::tokenize`'s regex loop)

The segmentation pattern is
`('s|'t|'re|'ve|'m|'ll|'d| ?[a-zA-Z]+| ?\d+| ?[^\s\w]+|\s+)` over wide
characters, matched with `std::regex_search` (ECMAScript): the leftmost
position at which some alternative matches wins, alternatives are tried in
order, quantifiers are greedy, and `?` backtracks.  With the default locale,
`\w` is `[a-zA-Z0-9_]`, `\s` is `[ \t\n\v\f\r]`, and `\d` is `[0-9]`. -/

/-- `[a-zA-Z]`. -/
def isLetter (c : ℕ) : Bool := decide ((65 ≤ c ∧ c ≤ 90) ∨ (97 ≤ c ∧ c ≤ 122))

/-- `\d` = `[0-9]`. -/
def isDigit (c : ℕ) : Bool := decide (48 ≤ c ∧ c ≤ 57)

/-- `\s` = `[ \t\n\v\f\r]`. -/
def isSpaceCh (c : ℕ) : Bool := decide (c = 32 ∨ (9 ≤ c ∧ c ≤ 13))

/-- `\w` = `[a-zA-Z0-9_]`. -/
def isWordCh (c : ℕ) : Bool := isLetter c || isDigit c || decide (c = 95)

/-- `[^\s\w]`. -/
def isOtherCh (c : ℕ) : Bool := !(isSpaceCh c) && !(isWordCh c)

/-- Greedy `p+` at the head of the input: one or more characters satisfying
`p`, or fail. -/
def run1 (p : ℕ → Bool) : WStr → Option (WStr × WStr)
  | [] => none
  | c :: r => if p c then some (c :: r.takeWhile p, r.dropWhile p) else none

/-- Greedy ` ?p+`: prefer consuming one literal space (codepoint 32) before
the run; backtrack to the spaceless run if that fails. -/
def altOptSpace (p : ℕ → Bool) (l : WStr) : Option (WStr × WStr) :=
  match l with
  | [] => none
  | c :: rest =>
    if c = 32 then
      match run1 p rest with
      | some (tk, r) => some (32 :: tk, r)
      | none => run1 p (c :: rest)
    else run1 p (c :: rest)

/-- The seven contraction alternatives `'s|'t|'re|'ve|'m|'ll|'d`, tried in
pattern order (codepoints: `'` 39, `s` 115, `t` 116, `r` 114, `e` 101,
`v` 118, `m` 109, `l` 108, `d` 100). -/
def matchContraction : WStr → Option (WStr × WStr)
  | 39 :: 115 :: r => some ([39, 115], r)
  | 39 :: 116 :: r => some ([39, 116], r)
  | 39 :: 114 :: 101 :: r => some ([39, 114, 101], r)
  | 39 :: 118 :: 101 :: r => some ([39, 118, 101], r)
  | 39 :: 109 :: r => some ([39, 109], r)
  | 39 :: 108 :: 108 :: r => some ([39, 108, 108], r)
  | 39 :: 100 :: r => some ([39, 100], r)
  | _ => none

/-- Try the alternation at the current position, in pattern order. -/
def matchAt (l : WStr) : Option (WStr × WStr) :=
  match matchContraction l with
  | some m => some m
  | none =>
    match altOptSpace isLetter l with
    | some m => some m
    | none =>
      match altOptSpace isDigit l with
      | some m => some m
      | none =>
        match altOptSpace isOtherCh l with
        | some m => some m
        | none => run1 isSpaceCh l

/-- `std::regex_search`: the match at the leftmost position where the
alternation matches, as (matched text, suffix after the match). -/
def findMatch : WStr → Option (WStr × WStr)
  | [] => none
  | c :: t =>
    match matchAt (c :: t) with
    | some m => some m
    | none => findMatch t

theorem run1_decomp (p : ℕ → Bool) (l tk r : WStr) (h : run1 p l = some (tk, r)) :
    tk ++ r = l ∧ tk ≠ [] := by
  cases l with
  | nil => cases h
  | cons c t =>
    rw [run1] at h
    by_cases hp : p c
    · rw [if_pos hp] at h
      cases h
      exact ⟨by simp [List.takeWhile_append_dropWhile], by simp⟩
    · rw [if_neg hp] at h; cases h

theorem altOptSpace_decomp (p : ℕ → Bool) (l tk r : WStr)
    (h : altOptSpace p l = some (tk, r)) : tk ++ r = l ∧ tk ≠ [] := by
  cases l with
  | nil => cases h
  | cons c rest =>
    rw [altOptSpace] at h
    by_cases hc : c = 32
    · rw [if_pos hc] at h
      cases hr : run1 p rest with
      | some m =>
        obtain ⟨tk', r'⟩ := m
        rw [hr] at h
        cases h
        have := run1_decomp p rest tk' r hr
        exact ⟨by simp [hc, this.1], by simp⟩
      | none =>
        rw [hr] at h
        exact run1_decomp p _ tk r h
    · rw [if_neg hc] at h
      exact run1_decomp p _ tk r h

theorem matchContraction_decomp (l tk r : WStr) (h : matchContraction l = some (tk, r)) :
    tk ++ r = l ∧ tk ≠ [] := by
  unfold matchContraction at h
  split at h <;> first
    | (cases h; exact ⟨rfl, by simp⟩)
    | cases h

theorem matchAt_decomp (l tk r : WStr) (h : matchAt l = some (tk, r)) :
    tk ++ r = l ∧ tk ≠ [] := by
  unfold matchAt at h
  repeat' split at h
  any_goals cases h
  all_goals rename_i heq
  · exact matchContraction_decomp l tk r heq
  · exact altOptSpace_decomp isLetter l tk r heq
  · exact altOptSpace_decomp isDigit l tk r heq
  · exact altOptSpace_decomp isOtherCh l tk r heq
  · exact run1_decomp isSpaceCh l tk r h

theorem findMatch_decomp (l : WStr) (tk r : WStr) (h : findMatch l = some (tk, r)) :
    ∃ pre, pre ++ (tk ++ r) = l ∧ tk ≠ [] := by
  induction l with
  | nil => cases h
  | cons c t ih =>
    rw [findMatch] at h
    cases hm : matchAt (c :: t) with
    | some m =>
      rw [hm] at h
      cases h
      have := matchAt_decomp _ tk r hm
      exact ⟨[], by simpa using this⟩
    | none =>
      rw [hm] at h
      obtain ⟨pre, hpre, hne⟩ := ih h
      exact ⟨c :: pre, by simp [hpre], hne⟩

theorem findMatch_shorter (l : WStr) (p : WStr × WStr) (h : findMatch l = some p) :
    p.2.length < l.length := by
  obtain ⟨pre, hpre, hne⟩ := findMatch_decomp l p.1 p.2 h
  have : pre.length + (p.1.length + p.2.length) = l.length := by
    rw [← hpre]; simp
  have : 1 ≤ p.1.length := by
    cases hp : p.1 with
    | nil => exact absurd hp hne
    | cons a b => simp
  omega

/-- The `regex_search` loop of `BPE::tokenize`: emit the match, continue after
it, stop when no further match exists.  Every match consumes at least one
character, so `l.length` rounds always reach the fixpoint (`pretokLoop_suff`);
the fuel only makes the recursion structural. -/
def pretokLoop : ℕ → WStr → List WStr
  | 0, _ => []
  | fuel + 1, l =>
    match findMatch l with
    | none => []
    | some (tk, r) => tk :: pretokLoop fuel r

def pretokenize (l : WStr) : List WStr := pretokLoop l.length l

/-- With enough fuel, one loop round unfolds as the source's `while`. -/
theorem pretokLoop_suff (fuel : ℕ) (l : WStr) (hf : l.length ≤ fuel) :
    pretokLoop fuel l =
      match findMatch l with
      | none => []
      | some (tk, r) => tk :: pretokenize r := by
  cases fuel with
  | zero =>
    have hl : l = [] := List.eq_nil_of_length_eq_zero (by omega)
    subst hl
    rfl
  | succ fuel =>
    rw [pretokLoop]
    cases hm : findMatch l with
    | none => rfl
    | some p =>
      obtain ⟨tk, r⟩ := p
      have hr : r.length < l.length := findMatch_shorter l (tk, r) hm
      unfold pretokenize
      show tk :: pretokLoop fuel r = tk :: pretokLoop r.length r
      rw [pretokLoop_suff fuel r (by omega), pretokLoop_suff r.length r le_rfl]
  termination_by fuel

/-- The defining equation of the pretokenizer loop. -/
theorem pretokenize_eq (l : WStr) :
    pretokenize l =
      match findMatch l with
      | none => []
      | some (tk, r) => tk :: pretokenize r := by
  conv_lhs => unfold pretokenize
  rw [pretokLoop_suff l.length l le_rfl]

theorem run1_none_head (p : ℕ → Bool) (c : ℕ) (t : WStr) (h : run1 p (c :: t) = none) :
    p c = false := by
  cases hpc : p c
  · rfl
  · simp [run1, hpc] at h

theorem altOptSpace_none_head (p : ℕ → Bool) (c : ℕ) (t : WStr)
    (h : altOptSpace p (c :: t) = none) : p c = false := by
  rw [altOptSpace] at h
  by_cases hc : c = 32
  · rw [if_pos hc] at h
    cases hr : run1 p t with
    | some m => obtain ⟨a, b⟩ := m; rw [hr] at h; cases h
    | none => rw [hr] at h; exact run1_none_head p c t h
  · rw [if_neg hc] at h
    exact run1_none_head p c t h

/-- The only character that can start no alternative of the pattern is the
underscore (codepoint 95): it is a word character but neither a letter nor a
digit, and every alternative's first character is a contraction apostrophe, a
letter, a digit, a non-word non-space character, or whitespace. -/
theorem matchAt_none_head95 (c : ℕ) (t : WStr) (h : matchAt (c :: t) = none) :
    c = 95 := by
  unfold matchAt at h
  split at h
  · cases h
  · split at h
    · cases h
    · split at h
      · cases h
      · split at h
        · cases h
        · have hl : isLetter c = false := altOptSpace_none_head isLetter c t (by assumption)
          have hd : isDigit c = false := altOptSpace_none_head isDigit c t (by assumption)
          have ho : isOtherCh c = false := altOptSpace_none_head isOtherCh c t (by assumption)
          have hs : isSpaceCh c = false := run1_none_head isSpaceCh c t h
          rw [isOtherCh, hs, isWordCh, hl, hd] at ho
          simpa using ho

theorem findMatch_head (c : ℕ) (t : WStr) (hc : c ≠ 95) :
    findMatch (c :: t) = matchAt (c :: t) := by
  rw [findMatch]
  cases hm : matchAt (c :: t) with
  | some m => rfl
  | none => exact absurd (matchAt_none_head95 c t hm) hc

theorem pretokenize_flatten_aux (n : ℕ) :
    ∀ l : WStr, l.length ≤ n → (∀ c ∈ l, c ≠ 95) → (pretokenize l).flatten = l := by
  induction n with
  | zero =>
    intro l hl _
    have : l = [] := List.eq_nil_of_length_eq_zero (by omega)
    subst this
    rfl
  | succ n ih =>
    intro l hl h95
    cases l with
    | nil => rfl
    | cons c t =>
      have hc : c ≠ 95 := h95 c (by simp)
      rw [pretokenize_eq, findMatch_head c t hc]
      cases hm : matchAt (c :: t) with
      | none => exact absurd (matchAt_none_head95 c t hm) hc
      | some p =>
        obtain ⟨tk, r⟩ := p
        have hd := matchAt_decomp _ tk r hm
        have hlen : tk.length + r.length = t.length + 1 := by
          have := congrArg List.length hd.1
          simpa using this
        have htk : 1 ≤ tk.length := by
          cases htk' : tk with
          | nil => exact absurd htk' hd.2
          | cons a b => simp
        have hr95 : ∀ x ∈ r, x ≠ 95 := by
          intro x hx
          exact h95 x (by rw [← hd.1]; exact List.mem_append_right _ hx)
        rw [List.flatten_cons, ih r (by simp at hl; omega) hr95, hd.1]

/-- Coverage: on a segment without underscores the matches exactly tile it. -/
theorem pretokenize_flatten (l : WStr) (h95 : ∀ c ∈ l, c ≠ 95) :
    (pretokenize l).flatten = l :=
  pretokenize_flatten_aux l.length l le_rfl h95

theorem pretokenize_ne_nil_aux (n : ℕ) :
    ∀ l : WStr, l.length ≤ n → ∀ m ∈ pretokenize l, m ≠ [] := by
  induction n with
  | zero =>
    intro l hl m hm
    have : l = [] := List.eq_nil_of_length_eq_zero (by omega)
    subst this
    simp [pretokenize, pretokLoop] at hm
  | succ n ih =>
    intro l hl m hm
    rw [pretokenize_eq] at hm
    cases hfm : findMatch l with
    | none => rw [hfm] at hm; simp at hm
    | some p =>
      obtain ⟨tk, r⟩ := p
      rw [hfm] at hm
      have hshort := findMatch_shorter l (tk, r) hfm
      rcases List.mem_cons.mp hm with hm | hm
      · obtain ⟨pre, hpre, hne⟩ := findMatch_decomp l tk r hfm
        exact hm ▸ hne
      · exact ih r (by simp at hshort ⊢; omega) m hm

/-- Every emitted pretoken is nonempty. -/
theorem pretokenize_ne_nil (l : WStr) : ∀ m ∈ pretokenize l, m ≠ [] :=
  pretokenize_ne_nil_aux l.length l le_rfl

/-! ## `BPE::bpe` — the pair-merge core

`m_bpeRanks` is an association list from symbol pairs to ranks.  The selection
loop scans all pair slots left to right, skips merged slots, treats an absent
rank as `+∞`, and keeps a strictly smaller score only, so it returns the
leftmost slot attaining the minimum finite score; `selectSlot` renders exactly
that.  The loop body marks the chosen slot merged and patches the nearest
unmerged slots on both sides.  Each iteration permanently marks one slot, so
`pairs.length` rounds reach the fixpoint; the fuel only makes the recursion
structural. -/

/-- A merge-rule table: symbol pairs mapped to their ranks. -/
abbrev Ranks := List ((WStr × WStr) × ℕ)

/-- `m_bpeRanks.find`: the rank of a pair, `none` when absent. -/
def rankOf (ranks : Ranks) (p : WStr × WStr) : Option ℕ := alFind ranks p

/-- `BPE::getPairs`: the list of adjacent single-character pairs of a word. -/
def getPairs : WStr → List (WStr × WStr)
  | [] => []
  | [_] => []
  | a :: b :: t => ([a], [b]) :: getPairs (b :: t)

/-- The minimum of the finite scores in a list (`none` if all are `+∞`). -/
def minsc : List (Option ℕ) → Option ℕ
  | [] => none
  | none :: t => minsc t
  | some r :: t =>
    match minsc t with
    | none => some r
    | some m => some (min r m)

/-- First index holding exactly the score `some m`. -/
def selIdx (m : ℕ) : List (Option ℕ) → Option ℕ
  | [] => none
  | s :: t => if s = some m then some 0 else (selIdx m t).map (· + 1)

/-- The selection loop: the leftmost index attaining the minimum finite
score, or `none` when every score is `+∞`. -/
def selectSlot (scores : List (Option ℕ)) : Option ℕ :=
  match minsc scores with
  | none => none
  | some m => selIdx m scores

/-- The per-slot scores: merged slots are skipped, and an unmerged slot
scores the rank of its pair (absent = `+∞`). -/
def slotScores (ranks : Ranks) (pairs : List (WStr × WStr)) (merged : List ℕ) :
    List (Option ℕ) :=
  (List.range pairs.length).map fun i =>
    if merged.contains i then none else rankOf ranks (pairs.getD i ([], []))

/-- The `left` lambda: scan `i-1, i-2, …, 0` for the first unmerged slot
(`none` models the `-1` sentinel). -/
def leftNb (merged : List ℕ) (i : ℕ) : Option ℕ :=
  ((List.range i).reverse).find? fun j => !(merged.contains j)

/-- The `right` lambda: scan `i+1, …, cap-1` for the first unmerged slot
(`none` models the `cap` sentinel). -/
def rightNb (merged : List ℕ) (cap i : ℕ) : Option ℕ :=
  (List.range' (i + 1) (cap - (i + 1))).find? fun j => !(merged.contains j)

/-- `std::set::insert`. -/
def setInsert (merged : List ℕ) (i : ℕ) : List ℕ :=
  if merged.contains i then merged else i :: merged

/-- One body of the `while (true)` loop after a slot was selected. -/
def bpeStep (pairs : List (WStr × WStr)) (merged : List ℕ) (i : ℕ) :
    List (WStr × WStr) × List ℕ :=
  let merged' := setInsert merged i
  let mergeInto := (pairs.getD i ([], [])).1 ++ (pairs.getD i ([], [])).2
  let pairs₁ :=
    match leftNb merged' i with
    | some l => pairs.set l ((pairs.getD l ([], [])).1, mergeInto)
    | none => pairs
  let pairs₂ :=
    match rightNb merged' pairs.length i with
    | some r => pairs₁.set r (mergeInto, (pairs₁.getD r ([], [])).2)
    | none => pairs₁
  (pairs₂, merged')

/-- The merge loop over the fixed pair array. -/
def bpeLoop (ranks : Ranks) : ℕ → List (WStr × WStr) → List ℕ →
    List (WStr × WStr) × List ℕ
  | 0, pairs, merged => (pairs, merged)
  | fuel + 1, pairs, merged =>
    match selectSlot (slotScores ranks pairs merged) with
    | none => (pairs, merged)
    | some i =>
      let st := bpeStep pairs merged i
      bpeLoop ranks fuel st.1 st.2

/-- The output walk: emit each unmerged slot's right symbol, preceded by its
left symbol when no unmerged slot lies to its left. -/
def emitSlots (pairs : List (WStr × WStr)) (merged : List ℕ) : List WStr :=
  ((List.range pairs.length).map fun i =>
    if merged.contains i then []
    else
      (if leftNb merged i = none then [(pairs.getD i ([], [])).1] else []) ++
      [(pairs.getD i ([], [])).2]).flatten

/-- `BPE::bpe`: run the merge loop on the adjacent pairs of `token`, then
reconstruct the symbol sequence (the whole token when every slot merged). -/
def bpe (ranks : Ranks) (token : WStr) : List WStr :=
  let pairs0 := getPairs token
  let res := bpeLoop ranks pairs0.length pairs0 []
  if res.2.length = res.1.length then [token]
  else emitSlots res.1 res.2

/-! ### The naive greedy algorithm (spec §4.5's rebuilt-pair-list reference)

`naiveBPE` is the reference algorithm from the specification: after each merge it
rebuilds the adjacent-pair list of the current symbol sequence and selects
afresh.  It exists to state the refinement claim against `bpe`. -/

/-- Adjacent pairs of a symbol sequence (the rebuilt pair list). -/
def getPairsS (s : List WStr) : List (WStr × WStr) := s.zip s.tail

/-- Merge the symbols at positions `k` and `k+1` into one. -/
def mergeAt (s : List WStr) (k : ℕ) : List WStr :=
  s.take k ++ [s.getD k [] ++ s.getD (k + 1) []] ++ s.drop (k + 2)

/-- Modelled from the spec: the naive greedy loop — select the lowest-ranked
pair of the rebuilt pair list (leftmost on equal ranks, as the source's
strict-minimum scan) and merge that occurrence, until no pair has a rank. -/
def naiveLoop (ranks : Ranks) : ℕ → List WStr → List WStr
  | 0, s => s
  | fuel + 1, s =>
    match selectSlot ((getPairsS s).map (rankOf ranks)) with
    | none => s
    | some k => naiveLoop ranks fuel (mergeAt s k)

/-- The naive greedy BPE algorithm on an initial symbol sequence. -/
def naiveBPE (ranks : Ranks) (s : List WStr) : List WStr := naiveLoop ranks s.length s

/-! ### Slot-list analysis

A `(pairs, merged)` state is abstracted as a list of optional slots: `none`
for a merged slot, `some pair` otherwise.  The scans, patches and the output
walk of `BPE::bpe` only depend on this view, and its `reduceOption` is the
rebuilt pair list of the naive algorithm. -/

/-- The slot view of a `(pairs, merged)` state. -/
def slotsOf (pairs : List (WStr × WStr)) (merged : List ℕ) :
    List (Option (WStr × WStr)) :=
  (List.range pairs.length).map fun i =>
    if merged.contains i then none else some (pairs.getD i ([], []))

/-- Position of the `k`-th `some` entry. -/
def nthSomeIdx {α : Type} : List (Option α) → ℕ → ℕ
  | [], _ => 0
  | none :: t, k => nthSomeIdx t k + 1
  | some _ :: _, 0 => 0
  | some _ :: t, k + 1 => nthSomeIdx t k + 1

/-- Nearest `some` position strictly below `i` (the `left` scan on slots). -/
def prevSome {α : Type} (S : List (Option α)) : ℕ → Option ℕ
  | 0 => none
  | i + 1 => if (S.getD i none).isSome then some i else prevSome S i

/-- Position of the first `some` entry. -/
def firstSome {α : Type} : List (Option α) → Option ℕ
  | [] => none
  | none :: t => (firstSome t).map (· + 1)
  | some _ :: _ => some 0

/-- Nearest `some` position strictly above `i` (the `right` scan on slots). -/
def nextSome {α : Type} (S : List (Option α)) (i : ℕ) : Option ℕ :=
  (firstSome (S.drop (i + 1))).map (· + (i + 1))

theorem minsc_expand {α : Type} (rank : α → Option ℕ) (S : List (Option α)) :
    minsc (S.map fun o => o.bind rank) = minsc (S.reduceOption.map rank) := by
  induction S with
  | nil => rfl
  | cons o T ih =>
    cases o with
    | none => simpa [minsc, List.reduceOption_cons_of_none] using ih
    | some a =>
      rw [List.map_cons, List.reduceOption_cons_of_some, List.map_cons, Option.some_bind]
      cases hra : rank a with
      | none => simpa [minsc] using ih
      | some r =>
        simp only [minsc]
        rw [ih]

theorem selIdx_expand {α : Type} (rank : α → Option ℕ) (S : List (Option α)) (m : ℕ) :
    selIdx m (S.map fun o => o.bind rank) =
      (selIdx m (S.reduceOption.map rank)).map (nthSomeIdx S) := by
  induction S generalizing m with
  | nil => rfl
  | cons o T ih =>
    cases o with
    | none =>
      rw [List.map_cons, List.reduceOption_cons_of_none]
      rw [show (none : Option α).bind rank = none from rfl]
      rw [show selIdx m (none :: T.map fun o => o.bind rank) =
        (selIdx m (T.map fun o => o.bind rank)).map (· + 1) from by simp [selIdx]]
      rw [ih]
      cases selIdx m (T.reduceOption.map rank) with
      | none => rfl
      | some k => simp [nthSomeIdx]
    | some a =>
      rw [List.map_cons, List.reduceOption_cons_of_some, List.map_cons, Option.some_bind]
      by_cases hra : rank a = some m
      · simp [selIdx, hra, nthSomeIdx]
      · rw [show selIdx m (rank a :: T.map fun o => o.bind rank) =
          (selIdx m (T.map fun o => o.bind rank)).map (· + 1) from by simp [selIdx, hra]]
        rw [show selIdx m (rank a :: T.reduceOption.map rank) =
          (selIdx m (T.reduceOption.map rank)).map (· + 1) from by simp [selIdx, hra]]
        rw [ih]
        cases selIdx m (T.reduceOption.map rank) with
        | none => rfl
        | some k => simp [nthSomeIdx]

/-- The selection over slot scores is the naive selection over the rebuilt
pair list, transported through the position of the `k`-th unmerged slot. -/
theorem selectSlot_expand {α : Type} (rank : α → Option ℕ) (S : List (Option α)) :
    selectSlot (S.map fun o => o.bind rank) =
      (selectSlot (S.reduceOption.map rank)).map (nthSomeIdx S) := by
  unfold selectSlot
  rw [minsc_expand]
  cases minsc (S.reduceOption.map rank) with
  | none => rfl
  | some m => exact selIdx_expand rank S m

theorem selIdx_spec (m : ℕ) (l : List (Option ℕ)) :
    ∀ i : ℕ, selIdx m l = some i → i < l.length ∧ l.getD i none = some m := by
  induction l with
  | nil => intro i h; cases h
  | cons s t ih =>
    intro i h
    rw [selIdx] at h
    by_cases hs : s = some m
    · rw [if_pos hs] at h
      cases h
      exact ⟨by simp, hs⟩
    · rw [if_neg hs] at h
      cases hj : selIdx m t with
      | none => rw [hj] at h; cases h
      | some j =>
        rw [hj] at h
        cases h
        have := ih j hj
        exact ⟨by simp; omega, this.2⟩

theorem getD_set_ne {α : Type} (l : List α) (i j : ℕ) (x d : α) (h : i ≠ j) :
    (l.set i x).getD j d = l.getD j d := by
  induction l generalizing i j with
  | nil => simp
  | cons a t ih =>
    cases i with
    | zero =>
      cases j with
      | zero => exact absurd rfl h
      | succ j => simp
    | succ i =>
      cases j with
      | zero => simp
      | succ j => simpa using ih i j (by omega)

theorem getD_set_self {α : Type} (l : List α) (i : ℕ) (x d : α) (h : i < l.length) :
    (l.set i x).getD i d = x := by
  induction l generalizing i with
  | nil => simp at h
  | cons a t ih =>
    cases i with
    | zero => simp
    | succ i => simpa using ih i (by simpa using h)

theorem nthSomeIdx_lt {α : Type} (S : List (Option α)) (k : ℕ)
    (hk : k < S.reduceOption.length) : nthSomeIdx S k < S.length := by
  induction S generalizing k with
  | nil => simp [List.reduceOption_nil] at hk
  | cons o T ih =>
    cases o with
    | none =>
      rw [List.reduceOption_cons_of_none] at hk
      simpa [nthSomeIdx] using ih k hk
    | some a =>
      rw [List.reduceOption_cons_of_some] at hk
      cases k with
      | zero => simp [nthSomeIdx]
      | succ k =>
        have := ih k (by simpa using hk)
        simp [nthSomeIdx]
        omega

theorem getD_nthSomeIdx {α : Type} (S : List (Option α)) (k : ℕ) (d : α)
    (hk : k < S.reduceOption.length) :
    S.getD (nthSomeIdx S k) none = some (S.reduceOption.getD k d) := by
  induction S generalizing k with
  | nil => simp [List.reduceOption_nil] at hk
  | cons o T ih =>
    cases o with
    | none =>
      rw [List.reduceOption_cons_of_none] at hk
      simpa [nthSomeIdx] using ih k hk
    | some a =>
      rw [List.reduceOption_cons_of_some] at hk
      cases k with
      | zero => simp [nthSomeIdx]
      | succ k => simpa [nthSomeIdx] using ih k (by simpa using hk)

theorem reduceOption_set_none {α : Type} (S : List (Option α)) (k : ℕ)
    (hk : k < S.reduceOption.length) :
    (S.set (nthSomeIdx S k) none).reduceOption = S.reduceOption.eraseIdx k := by
  induction S generalizing k with
  | nil => simp [List.reduceOption_nil] at hk
  | cons o T ih =>
    cases o with
    | none =>
      rw [List.reduceOption_cons_of_none] at hk
      rw [show nthSomeIdx (none :: T) k = nthSomeIdx T k + 1 from rfl, List.set_cons_succ,
        List.reduceOption_cons_of_none, List.reduceOption_cons_of_none, ih k hk]
    | some a =>
      rw [List.reduceOption_cons_of_some] at hk
      cases k with
      | zero =>
        rw [show nthSomeIdx (some a :: T) 0 = 0 from rfl, List.set_cons_zero,
          List.reduceOption_cons_of_none, List.reduceOption_cons_of_some]
        rfl
      | succ k =>
        rw [show nthSomeIdx (some a :: T) (k + 1) = nthSomeIdx T k + 1 from rfl,
          List.set_cons_succ, List.reduceOption_cons_of_some, List.reduceOption_cons_of_some,
          ih k (by simpa using hk)]
        rfl

theorem reduceOption_set_some {α : Type} (S : List (Option α)) (k : ℕ) (b : α)
    (hk : k < S.reduceOption.length) :
    (S.set (nthSomeIdx S k) (some b)).reduceOption = S.reduceOption.set k b := by
  induction S generalizing k with
  | nil => simp [List.reduceOption_nil] at hk
  | cons o T ih =>
    cases o with
    | none =>
      rw [List.reduceOption_cons_of_none] at hk
      rw [show nthSomeIdx (none :: T) k = nthSomeIdx T k + 1 from rfl, List.set_cons_succ,
        List.reduceOption_cons_of_none, List.reduceOption_cons_of_none, ih k hk]
    | some a =>
      rw [List.reduceOption_cons_of_some] at hk
      cases k with
      | zero =>
        rw [show nthSomeIdx (some a :: T) 0 = 0 from rfl, List.set_cons_zero,
          List.reduceOption_cons_of_some, List.reduceOption_cons_of_some]
        rfl
      | succ k =>
        rw [show nthSomeIdx (some a :: T) (k + 1) = nthSomeIdx T k + 1 from rfl,
          List.set_cons_succ, List.reduceOption_cons_of_some, List.reduceOption_cons_of_some,
          ih k (by simpa using hk)]
        rfl

theorem nthSomeIdx_set_lt {α : Type} (S : List (Option α)) (k j : ℕ) (x : Option α)
    (hk : k < S.reduceOption.length) (hj : j < k) :
    nthSomeIdx (S.set (nthSomeIdx S k) x) j = nthSomeIdx S j := by
  induction S generalizing k j with
  | nil => simp [List.reduceOption_nil] at hk
  | cons o T ih =>
    cases o with
    | none =>
      rw [List.reduceOption_cons_of_none] at hk
      rw [show nthSomeIdx (none :: T) k = nthSomeIdx T k + 1 from rfl, List.set_cons_succ]
      show nthSomeIdx (T.set (nthSomeIdx T k) x) j + 1 = nthSomeIdx (none :: T) j
      rw [ih k j hk hj]
      rfl
    | some a =>
      rw [List.reduceOption_cons_of_some] at hk
      cases k with
      | zero => omega
      | succ k =>
        rw [show nthSomeIdx (some a :: T) (k + 1) = nthSomeIdx T k + 1 from rfl,
          List.set_cons_succ]
        cases j with
        | zero => rfl
        | succ j =>
          rw [show ∀ P, nthSomeIdx (some a :: P) (j + 1) = nthSomeIdx P j + 1 from
            fun P => rfl]
          rw [show nthSomeIdx (some a :: T) (j + 1) = nthSomeIdx T j + 1 from rfl]
          rw [ih k j (by simpa using hk) (by omega)]


theorem prevSome_cons {α : Type} (x : Option α) (T : List (Option α)) (i : ℕ) :
    prevSome (x :: T) (i + 1) =
      (match prevSome T i with
       | some j => some (j + 1)
       | none => if x.isSome then some 0 else none) := by
  induction i with
  | zero => cases x <;> simp [prevSome]
  | succ i ih =>
    have h1 : prevSome (x :: T) (i + 2) =
        if (T.getD i none).isSome then some (i + 1) else prevSome (x :: T) (i + 1) := rfl
    have h2 : prevSome T (i + 1) =
        if (T.getD i none).isSome then some i else prevSome T i := rfl
    rw [h1, h2]
    by_cases hT : (T.getD i none).isSome = true
    · rw [if_pos hT, if_pos hT]
    · rw [if_neg hT, if_neg hT, ih]

theorem prevSome_set_ge {α : Type} (S : List (Option α)) (i₀ : ℕ) (x : Option α) :
    ∀ i ≤ i₀, prevSome (S.set i₀ x) i = prevSome S i := by
  intro i
  induction i with
  | zero => intro _; rfl
  | succ i ih =>
    intro hle
    have h1 : prevSome (S.set i₀ x) (i + 1) =
        if ((S.set i₀ x).getD i none).isSome then some i else prevSome (S.set i₀ x) i := rfl
    have h2 : prevSome S (i + 1) =
        if (S.getD i none).isSome then some i else prevSome S i := rfl
    rw [h1, h2, getD_set_ne S i₀ i x none (by omega)]
    by_cases hT : (S.getD i none).isSome = true
    · rw [if_pos hT, if_pos hT]
    · rw [if_neg hT, if_neg hT, ih (by omega)]

theorem prevSome_nthSomeIdx {α : Type} (S : List (Option α)) (k : ℕ)
    (hk : k < S.reduceOption.length) :
    prevSome S (nthSomeIdx S k) =
      if k = 0 then none else some (nthSomeIdx S (k - 1)) := by
  induction S generalizing k with
  | nil => simp [List.reduceOption_nil] at hk
  | cons o T ih =>
    cases o with
    | none =>
      rw [List.reduceOption_cons_of_none] at hk
      rw [show nthSomeIdx (none :: T) k = nthSomeIdx T k + 1 from rfl, prevSome_cons, ih k hk]
      cases k with
      | zero => rfl
      | succ k =>
        simp only [Nat.succ_ne_zero, if_false, Nat.succ_sub_one]
        rfl
    | some a =>
      rw [List.reduceOption_cons_of_some] at hk
      cases k with
      | zero => rfl
      | succ k =>
        rw [show nthSomeIdx (some a :: T) (k + 1) = nthSomeIdx T k + 1 from rfl,
          prevSome_cons, ih k (by simpa using hk)]
        cases k with
        | zero => rfl
        | succ k =>
          simp only [Nat.succ_ne_zero, if_false, Nat.succ_sub_one]
          rfl

theorem drop_set_self {α : Type} (l : List α) (i : ℕ) (x : α) :
    (l.set i x).drop (i + 1) = l.drop (i + 1) := by
  induction l generalizing i with
  | nil => rfl
  | cons a t ih =>
    cases i with
    | zero => rfl
    | succ i => simpa using ih i

theorem nextSome_set_self {α : Type} (S : List (Option α)) (i : ℕ) (x : Option α) :
    nextSome (S.set i x) i = nextSome S i := by
  unfold nextSome
  rw [drop_set_self]

theorem nextSome_cons {α : Type} (x : Option α) (T : List (Option α)) (i : ℕ) :
    nextSome (x :: T) (i + 1) = (nextSome T i).map (· + 1) := by
  unfold nextSome
  rw [show (x :: T).drop (i + 1 + 1) = T.drop (i + 1) from rfl]
  cases firstSome (T.drop (i + 1)) with
  | none => rfl
  | some a => rfl

theorem firstSome_eq {α : Type} (S : List (Option α)) :
    firstSome S =
      if S.reduceOption.length = 0 then none else some (nthSomeIdx S 0) := by
  induction S with
  | nil => rfl
  | cons o T ih =>
    cases o with
    | none =>
      rw [show firstSome (none :: T) = (firstSome T).map (· + 1) from rfl, ih,
        List.reduceOption_cons_of_none]
      by_cases h : T.reduceOption.length = 0
      · simp [h]
      · simp only [h, if_false, Option.map_some']
        rfl
    | some a =>
      rw [show firstSome (some a :: T) = some 0 from rfl, List.reduceOption_cons_of_some]
      simp [nthSomeIdx]

theorem nextSome_nthSomeIdx {α : Type} (S : List (Option α)) (k : ℕ)
    (hk : k < S.reduceOption.length) :
    nextSome S (nthSomeIdx S k) =
      if k + 1 < S.reduceOption.length then some (nthSomeIdx S (k + 1)) else none := by
  induction S generalizing k with
  | nil => simp [List.reduceOption_nil] at hk
  | cons o T ih =>
    cases o with
    | none =>
      rw [List.reduceOption_cons_of_none] at hk
      rw [List.reduceOption_cons_of_none,
        show nthSomeIdx (none :: T) k = nthSomeIdx T k + 1 from rfl, nextSome_cons, ih k hk]
      by_cases h : k + 1 < T.reduceOption.length
      · rw [if_pos h, if_pos h]
        rfl
      · rw [if_neg h, if_neg h]
        rfl
    | some a =>
      rw [List.reduceOption_cons_of_some] at hk
      rw [List.reduceOption_cons_of_some]
      cases k with
      | zero =>
        rw [show nthSomeIdx (some a :: T) 0 = 0 from rfl,
          show nextSome (some a :: T) 0 = (firstSome T).map (· + 1) from rfl, firstSome_eq]
        by_cases h : T.reduceOption.length = 0
        · rw [if_pos h, if_neg (by rw [List.length_cons, h]; omega)]
          rfl
        · rw [if_neg h, if_pos (by rw [List.length_cons]; omega)]
          rfl
      | succ k =>
        rw [show nthSomeIdx (some a :: T) (k + 1) = nthSomeIdx T k + 1 from rfl,
          nextSome_cons, ih k (by simpa using hk)]
        by_cases h : k + 1 < T.reduceOption.length
        · rw [if_pos h, if_pos (by rw [List.length_cons]; omega)]
          rfl
        · rw [if_neg h, if_neg (by rw [List.length_cons]; omega)]
          rfl


theorem nthSomeIdx_mono {α : Type} (S : List (Option α)) (j k : ℕ) (hjk : j < k)
    (hk : k < S.reduceOption.length) : nthSomeIdx S j < nthSomeIdx S k := by
  induction S generalizing j k with
  | nil => simp [List.reduceOption_nil] at hk
  | cons o T ih =>
    cases o with
    | none =>
      rw [List.reduceOption_cons_of_none] at hk
      have := ih j k hjk hk
      show nthSomeIdx T j + 1 < nthSomeIdx T k + 1
      omega
    | some a =>
      rw [List.reduceOption_cons_of_some] at hk
      cases k with
      | zero => omega
      | succ k =>
        cases j with
        | zero =>
          show 0 < nthSomeIdx T k + 1
          omega
        | succ j =>
          have := ih j k (by omega) (by simpa using hk)
          show nthSomeIdx T j + 1 < nthSomeIdx T k + 1
          omega

theorem nthSomeIdx_set_ge {α : Type} (S : List (Option α)) (k j : ℕ)
    (hk : k < S.reduceOption.length) (hkj : k ≤ j) (hj : j + 1 < S.reduceOption.length) :
    nthSomeIdx (S.set (nthSomeIdx S k) none) j = nthSomeIdx S (j + 1) := by
  induction S generalizing k j with
  | nil => simp [List.reduceOption_nil] at hk
  | cons o T ih =>
    cases o with
    | none =>
      rw [List.reduceOption_cons_of_none] at hk hj
      rw [show nthSomeIdx (none :: T) k = nthSomeIdx T k + 1 from rfl, List.set_cons_succ]
      show nthSomeIdx (T.set (nthSomeIdx T k) none) j + 1 = nthSomeIdx (none :: T) (j + 1)
      rw [ih k j hk hkj hj]
      rfl
    | some a =>
      rw [List.reduceOption_cons_of_some] at hk hj
      cases k with
      | zero =>
        rw [show nthSomeIdx (some a :: T) 0 = 0 from rfl, List.set_cons_zero]
        show nthSomeIdx (none :: T) j = nthSomeIdx (some a :: T) (j + 1)
        rfl
      | succ k =>
        cases j with
        | zero => omega
        | succ j =>
          rw [show nthSomeIdx (some a :: T) (k + 1) = nthSomeIdx T k + 1 from rfl,
            List.set_cons_succ]
          show nthSomeIdx (T.set (nthSomeIdx T k) none) j + 1 =
            nthSomeIdx (some a :: T) (j + 2)
          rw [ih k j (by simpa using hk) (by omega) (by simpa using hj)]
          rfl

/-! ### The merge step on slots, and the pair-list surgery it performs -/

/-- The merged symbol of slot `i`: the concatenation of its two halves. -/
def slotX (S : List (Option (WStr × WStr))) (i : ℕ) : WStr :=
  ((S.getD i none).getD ([], [])).1 ++ ((S.getD i none).getD ([], [])).2

/-- Patch the right half of the slot at `l?` (the `left` patch of the loop). -/
def slotPatchL (S1 : List (Option (WStr × WStr))) (l? : Option ℕ) (X : WStr) :
    List (Option (WStr × WStr)) :=
  match l? with
  | some l => S1.set l (some (((S1.getD l none).getD ([], [])).1, X))
  | none => S1

/-- Patch the left half of the slot at `r?` (the `right` patch of the loop). -/
def slotPatchR (S2 : List (Option (WStr × WStr))) (r? : Option ℕ) (X : WStr) :
    List (Option (WStr × WStr)) :=
  match r? with
  | some r => S2.set r (some (X, ((S2.getD r none).getD ([], [])).2))
  | none => S2

/-- One merge iteration viewed on the slot list. -/
def slotStep (S : List (Option (WStr × WStr))) (i : ℕ) : List (Option (WStr × WStr)) :=
  slotPatchR (slotPatchL (S.set i none) (prevSome (S.set i none) i) (slotX S i))
    (nextSome (S.set i none) i) (slotX S i)

/-- The corresponding surgery on the rebuilt pair list: erase entry `k`, set
the right half of entry `k-1` and the left half of entry `k+1` (when they
exist) to the merged symbol. -/
def pairSurgery (L : List (WStr × WStr)) (k : ℕ) : List (WStr × WStr) :=
  if k + 1 < L.length then
    (if k = 0 then L.eraseIdx k
     else (L.eraseIdx k).set (k - 1)
       ((L.getD (k - 1) ([], [])).1, (L.getD k ([], [])).1 ++ (L.getD k ([], [])).2)).set k
      ((L.getD k ([], [])).1 ++ (L.getD k ([], [])).2, (L.getD (k + 1) ([], [])).2)
  else
    if k = 0 then L.eraseIdx k
    else (L.eraseIdx k).set (k - 1)
      ((L.getD (k - 1) ([], [])).1, (L.getD k ([], [])).1 ++ (L.getD k ([], [])).2)

theorem slotStep_cons_none (T : List (Option (WStr × WStr))) (i : ℕ) :
    slotStep (none :: T) (i + 1) = none :: slotStep T i := by
  unfold slotStep
  rw [show (none :: T).set (i + 1) none = none :: T.set i none from rfl,
    show slotX (none :: T) (i + 1) = slotX T i from rfl, prevSome_cons, nextSome_cons]
  cases hp : prevSome (T.set i none) i <;> cases hn : nextSome (T.set i none) i <;> rfl

theorem slotStep_cons_some (a : WStr × WStr) (T : List (Option (WStr × WStr))) (i : ℕ) :
    slotStep (some a :: T) (i + 1) =
      (if prevSome (T.set i none) i = none then some (a.1, slotX T i) else some a) ::
        slotStep T i := by
  unfold slotStep
  rw [show (some a :: T).set (i + 1) none = some a :: T.set i none from rfl,
    show slotX (some a :: T) (i + 1) = slotX T i from rfl, prevSome_cons, nextSome_cons]
  cases hp : prevSome (T.set i none) i <;> cases hn : nextSome (T.set i none) i <;> rfl

theorem pairSurgery_cons_succ (a : WStr × WStr) (L : List (WStr × WStr)) (k : ℕ) :
    pairSurgery (a :: L) (k + 1) =
      (if k = 0 then (a.1, (L.getD k ([], [])).1 ++ (L.getD k ([], [])).2) else a) ::
        pairSurgery L k := by
  unfold pairSurgery
  have hgk : (a :: L).getD (k + 1) ([], []) = L.getD k ([], []) := rfl
  have hgk2 : (a :: L).getD (k + 1 + 1) ([], []) = L.getD (k + 1) ([], []) := rfl
  have he : (a :: L).eraseIdx (k + 1) = a :: L.eraseIdx k := rfl
  rw [hgk, hgk2, he, if_neg (show ¬ (k + 1 = 0) by omega)]
  by_cases hk0 : k = 0
  · subst hk0
    rw [show (0 : ℕ) + 1 - 1 = 0 from rfl]
    rw [show ((a :: L).getD 0 ([], [])).1 = a.1 from rfl]
    rw [show ∀ v, (a :: L.eraseIdx 0).set 0 v = v :: L.eraseIdx 0 from fun v => rfl]
    by_cases hc : 0 + 1 < L.length
    · rw [if_pos (show 0 + 1 + 1 < (a :: L).length by rw [List.length_cons]; omega),
        if_pos hc, if_pos rfl, if_pos rfl]
      rw [show ∀ v, ((a.1, (L.getD 0 ([], [])).1 ++ (L.getD 0 ([], [])).2) ::
        L.eraseIdx 0).set (0 + 1) v =
        (a.1, (L.getD 0 ([], [])).1 ++ (L.getD 0 ([], [])).2) :: (L.eraseIdx 0).set 0 v
        from fun v => rfl]
    · rw [if_neg (show ¬ (0 + 1 + 1 < (a :: L).length) by rw [List.length_cons]; omega),
        if_neg hc, if_pos rfl, if_pos rfl]
  · rw [if_neg hk0]
    obtain ⟨k', rfl⟩ : ∃ k', k = k' + 1 := ⟨k - 1, by omega⟩
    rw [show k' + 1 + 1 - 1 = k' + 1 from rfl, show k' + 1 - 1 = k' from rfl]
    rw [show (a :: L).getD (k' + 1) ([], []) = L.getD k' ([], []) from rfl]
    rw [show ∀ v, (a :: L.eraseIdx (k' + 1)).set (k' + 1) v =
      a :: (L.eraseIdx (k' + 1)).set k' v from fun v => rfl]
    by_cases hc : k' + 1 + 1 < L.length
    · rw [if_pos (show k' + 1 + 1 + 1 < (a :: L).length by rw [List.length_cons]; omega),
        if_pos hc, if_neg (show ¬ (k' + 1 = 0) by omega)]
      rw [show ∀ v w, (a :: (L.eraseIdx (k' + 1)).set k' w).set (k' + 1 + 1) v =
        a :: ((L.eraseIdx (k' + 1)).set k' w).set (k' + 1) v from fun v w => rfl]
    · rw [if_neg (show ¬ (k' + 1 + 1 + 1 < (a :: L).length) by rw [List.length_cons]; omega),
        if_neg hc, if_neg (show ¬ (k' + 1 = 0) by omega)]

/-- The merge step on slots performs exactly the pair-list surgery on the
rebuilt pair list. -/
theorem reduceOption_slotStep (S : List (Option (WStr × WStr))) (k : ℕ)
    (hk : k < S.reduceOption.length) :
    (slotStep S (nthSomeIdx S k)).reduceOption = pairSurgery S.reduceOption k := by
  induction S generalizing k with
  | nil => simp [List.reduceOption_nil] at hk
  | cons o T ih =>
    cases o with
    | none =>
      rw [List.reduceOption_cons_of_none] at hk
      rw [List.reduceOption_cons_of_none,
        show nthSomeIdx (none :: T) k = nthSomeIdx T k + 1 from rfl, slotStep_cons_none,
        List.reduceOption_cons_of_none, ih k hk]
    | some a =>
      rw [List.reduceOption_cons_of_some] at hk
      rw [List.reduceOption_cons_of_some]
      cases k with
      | zero =>
        rw [show nthSomeIdx (some a :: T) 0 = 0 from rfl]
        unfold slotStep
        rw [show (some a :: T).set 0 none = none :: T from rfl,
          show prevSome (none :: T) 0 = none from rfl,
          show nextSome (none :: T) 0 = (firstSome T).map (· + 1) from rfl,
          firstSome_eq]
        rw [show slotPatchL (none :: T) none (slotX (some a :: T) 0) = none :: T from rfl]
        by_cases h0 : T.reduceOption.length = 0
        · have hT : T.reduceOption = [] := List.eq_nil_of_length_eq_zero h0
          rw [if_pos h0]
          rw [show Option.map (· + 1) (none : Option ℕ) = none from rfl]
          rw [show slotPatchR (none :: T) none (slotX (some a :: T) 0) = none :: T from rfl]
          rw [List.reduceOption_cons_of_none, hT]
          rfl
        · rw [if_neg h0]
          rw [show Option.map (· + 1) (some (nthSomeIdx T 0)) =
            some (nthSomeIdx T 0 + 1) from rfl]
          rw [show slotPatchR (none :: T) (some (nthSomeIdx T 0 + 1)) (slotX (some a :: T) 0) =
            (none :: T).set (nthSomeIdx T 0 + 1)
              (some (slotX (some a :: T) 0,
                (((none :: T).getD (nthSomeIdx T 0 + 1) none).getD ([], [])).2)) from rfl]
          have hget : (none :: T).getD (nthSomeIdx T 0 + 1) none =
              some (T.reduceOption.getD 0 ([], [])) := by
            rw [List.getD_cons_succ]
            exact getD_nthSomeIdx T 0 ([], []) (by omega)
          rw [hget]
          simp only [Option.getD_some]
          rw [List.set_cons_succ, List.reduceOption_cons_of_none,
            reduceOption_set_some T 0 _ (by omega)]
          unfold pairSurgery
          rw [if_pos (show 0 + 1 < (a :: T.reduceOption).length by
            rw [List.length_cons]; omega)]
          rw [if_pos rfl]
          rw [show (a :: T.reduceOption).eraseIdx 0 = T.reduceOption from rfl,
            show (a :: T.reduceOption).getD 0 ([], []) = a from rfl,
            show (a :: T.reduceOption).getD (0 + 1) ([], []) =
              T.reduceOption.getD 0 ([], []) from rfl,
            show slotX (some a :: T) 0 = a.1 ++ a.2 from rfl]
      | succ k =>
        rw [show nthSomeIdx (some a :: T) (k + 1) = nthSomeIdx T k + 1 from rfl,
          slotStep_cons_some]
        have hk' : k < T.reduceOption.length := by simpa using hk
        rw [prevSome_set_ge T (nthSomeIdx T k) none (nthSomeIdx T k) le_rfl,
          prevSome_nthSomeIdx T k hk']
        have hX : slotX T (nthSomeIdx T k) =
            (T.reduceOption.getD k ([], [])).1 ++ (T.reduceOption.getD k ([], [])).2 := by
          unfold slotX
          rw [getD_nthSomeIdx T k ([], []) hk']
          rfl
        rw [pairSurgery_cons_succ]
        cases k with
        | zero =>
          rw [if_pos (show (if (0 : ℕ) = 0 then (none : Option ℕ)
              else some (nthSomeIdx T (0 - 1))) = none from rfl)]
          rw [if_pos rfl, List.reduceOption_cons_of_some, ih 0 hk', hX]
        | succ k =>
          rw [if_neg (show ¬ ((if (k + 1 : ℕ) = 0 then (none : Option ℕ)
              else some (nthSomeIdx T (k + 1 - 1))) = none) by simp)]
          rw [if_neg (show ¬ (k + 1 = 0) by omega)]
          rw [List.reduceOption_cons_of_some, ih (k + 1) hk']


/-! ### Bridging the imperative state to the slot view -/

theorem slotsOf_length (pairs : List (WStr × WStr)) (merged : List ℕ) :
    (slotsOf pairs merged).length = pairs.length := by
  unfold slotsOf
  rw [List.length_map, List.length_range]

theorem getD_map_range {α : Type} (n : ℕ) :
    ∀ (i : ℕ) (f : ℕ → α) (d : α),
    ((List.range n).map f).getD i d = if i < n then f i else d := by
  induction n with
  | zero => intro i f d; simp
  | succ n ih =>
    intro i f d
    rw [List.range_succ_eq_map n, List.map_cons, List.map_map]
    cases i with
    | zero => simp
    | succ i =>
      rw [List.getD_cons_succ, ih i (f ∘ Nat.succ) d]
      by_cases h : i < n
      · rw [if_pos h, if_pos (by omega)]
        rfl
      · rw [if_neg h, if_neg (by omega)]

theorem set_map_range {α : Type} (n : ℕ) :
    ∀ (i : ℕ) (f : ℕ → α) (v : α),
    ((List.range n).map f).set i v =
      (List.range n).map fun j => if j = i then v else f j := by
  induction n with
  | zero => intro i f v; simp
  | succ n ih =>
    intro i f v
    rw [List.range_succ_eq_map n, List.map_cons, List.map_map, List.map_cons, List.map_map]
    cases i with
    | zero =>
      rw [List.set_cons_zero, if_pos rfl]
      rfl
    | succ i =>
      rw [List.set_cons_succ, ih i (f ∘ Nat.succ) v, if_neg (by omega)]
      congr 1
      apply List.map_congr_left
      intro a ha
      show (if a = i then v else f a.succ) = if a.succ = i + 1 then v else f a.succ
      by_cases h : a = i
      · rw [if_pos h, if_pos (by omega)]
      · rw [if_neg h, if_neg (by omega)]

theorem set_of_length_le {α : Type} (l : List α) :
    ∀ (i : ℕ) (v : α), l.length ≤ i → l.set i v = l := by
  induction l with
  | nil => intro i v _; rfl
  | cons a t ih =>
    intro i v h
    cases i with
    | zero => simp at h
    | succ i =>
      rw [List.set_cons_succ, ih i v (by simpa using h)]

theorem slotsOf_getD (pairs : List (WStr × WStr)) (merged : List ℕ) (i : ℕ) :
    (slotsOf pairs merged).getD i none =
      if i < pairs.length then
        (if merged.contains i then none else some (pairs.getD i ([], [])))
      else none := by
  unfold slotsOf
  rw [getD_map_range]

theorem slotScores_eq (ranks : Ranks) (pairs : List (WStr × WStr)) (merged : List ℕ) :
    slotScores ranks pairs merged =
      (slotsOf pairs merged).map fun o => o.bind (rankOf ranks) := by
  unfold slotScores slotsOf
  rw [List.map_map]
  apply List.map_congr_left
  intro i hi
  rw [Function.comp_apply]
  by_cases h : merged.contains i = true
  · rw [if_pos h, if_pos h]
    rfl
  · rw [if_neg h, if_neg h]
    rfl

theorem contains_eq_decide_mem {α : Type} [DecidableEq α] (L : List α) (x : α) :
    L.contains x = decide (x ∈ L) :=
  List.elem_eq_mem x L

theorem contains_setInsert (merged : List ℕ) (i j : ℕ) :
    (setInsert merged i).contains j = (decide (j = i) || merged.contains j) := by
  rw [contains_eq_decide_mem, contains_eq_decide_mem]
  unfold setInsert
  by_cases h : merged.contains i = true
  · rw [if_pos h]
    have hi : i ∈ merged := by
      rw [contains_eq_decide_mem] at h
      exact of_decide_eq_true h
    by_cases hji : j = i
    · subst hji
      simp [hi]
    · simp [hji]
  · rw [if_neg h]
    by_cases hji : j = i
    · subst hji
      simp
    · simp [List.mem_cons, hji]

/-- Marking a slot merged sets its slot to `none`. -/
theorem slotsOf_setInsert (pairs : List (WStr × WStr)) (merged : List ℕ) (i : ℕ) :
    slotsOf pairs (setInsert merged i) = (slotsOf pairs merged).set i none := by
  unfold slotsOf
  by_cases hi : i < pairs.length
  · rw [set_map_range]
    apply List.map_congr_left
    intro j hj
    rw [contains_setInsert]
    by_cases h : j = i
    · subst h
      rw [if_pos rfl]
      rw [show (decide (j = j) || merged.contains j) = true by simp]
      simp
    · rw [if_neg h]
      rw [show (decide (j = i) || merged.contains j) = merged.contains j by simp [h]]
  · rw [set_of_length_le _ _ _ (by rw [List.length_map, List.length_range]; omega)]
    apply List.map_congr_left
    intro j hj
    rw [contains_setInsert]
    have hne : j ≠ i := by
      rw [List.mem_range] at hj
      omega
    rw [show (decide (j = i) || merged.contains j) = merged.contains j by simp [hne]]

/-- Patching an unmerged slot's pair sets its slot value. -/
theorem slotsOf_set (pairs : List (WStr × WStr)) (merged : List ℕ) (l : ℕ)
    (v : WStr × WStr) (hl : merged.contains l = false) (hln : l < pairs.length) :
    slotsOf (pairs.set l v) merged = (slotsOf pairs merged).set l (some v) := by
  unfold slotsOf
  rw [List.length_set, set_map_range]
  apply List.map_congr_left
  intro j hj
  by_cases h : j = l
  · subst h
    rw [if_pos rfl, hl]
    simp only [Bool.false_eq_true, if_false]
    rw [getD_set_self pairs j v ([], []) hln]
  · rw [if_neg h, getD_set_ne pairs l j v ([], []) (by omega)]

/-- The `left` scan is the `prevSome` scan on slots. -/
theorem leftNb_eq_prevSome (pairs : List (WStr × WStr)) (merged : List ℕ) :
    ∀ i, i ≤ pairs.length → leftNb merged i = prevSome (slotsOf pairs merged) i := by
  intro i
  unfold leftNb
  induction i with
  | zero => intro _; rfl
  | succ i ih =>
    intro hi
    rw [List.range_succ, List.reverse_append, List.reverse_cons, List.reverse_nil,
      List.nil_append, List.cons_append, List.nil_append, List.find?_cons]
    have hgd : ((slotsOf pairs merged).getD i none).isSome = !(merged.contains i) := by
      rw [slotsOf_getD, if_pos (by omega)]
      by_cases h : i ∈ merged <;> simp [h]
    have hps : prevSome (slotsOf pairs merged) (i + 1) =
        if ((slotsOf pairs merged).getD i none).isSome then some i
        else prevSome (slotsOf pairs merged) i := rfl
    rw [hps, hgd]
    by_cases h : merged.contains i
    · rw [h]
      simp only [Bool.not_true, Bool.false_eq_true, if_false]
      exact ih (by omega)
    · rw [show merged.contains i = false by simpa using h]
      simp

theorem getD_drop {α : Type} (l : List α) :
    ∀ (n m : ℕ) (d : α), (l.drop n).getD m d = l.getD (n + m) d := by
  induction l with
  | nil =>
    intro n m d
    rw [List.drop_nil]
    rfl
  | cons a t ih =>
    intro n m d
    cases n with
    | zero =>
      rw [List.drop_zero, Nat.zero_add]
    | succ n =>
      rw [List.drop_succ_cons, ih n m d]
      have e : n + 1 + m = n + m + 1 := by omega
      rw [e, List.getD_cons_succ]

theorem find?_range'_firstSome (merged : List ℕ) (D : List (Option (WStr × WStr))) :
    ∀ s : ℕ, (∀ j, j < D.length → (!(merged.contains (s + j))) = (D.getD j none).isSome) →
    (List.range' s D.length).find? (fun j => !(merged.contains j)) =
      (firstSome D).map (· + s) := by
  induction D with
  | nil => intro s h; rfl
  | cons o D ih =>
    intro s h
    rw [show (o :: D).length = D.length + 1 from rfl, List.range'_succ, List.find?_cons]
    have h0 := h 0 (by simp)
    rw [Nat.add_zero] at h0
    cases o with
    | some p =>
      have hc : (!(merged.contains s)) = true := by simpa using h0
      rw [hc]
      rw [show firstSome (some p :: D) = some 0 from rfl]
      simp
    | none =>
      have hc : (!(merged.contains s)) = false := by simpa using h0
      rw [hc]
      rw [show firstSome (none :: D) = (firstSome D).map (· + 1) from rfl]
      rw [ih (s + 1) ?hshift]
      · cases firstSome D with
        | none => rfl
        | some a =>
          simp only [Option.map_some']
          exact congrArg some (by omega)
      case hshift =>
        intro j hj
        have := h (j + 1) (by simpa using Nat.succ_lt_succ hj)
        have e : s + (j + 1) = s + 1 + j := by omega
        rw [e] at this
        exact this

/-- The `right` scan is the `nextSome` scan on slots. -/
theorem rightNb_eq_nextSome (pairs : List (WStr × WStr)) (merged : List ℕ) (i : ℕ) :
    rightNb merged pairs.length i = nextSome (slotsOf pairs merged) i := by
  unfold rightNb nextSome
  have hD : ((slotsOf pairs merged).drop (i + 1)).length = pairs.length - (i + 1) := by
    rw [List.length_drop, slotsOf_length]
  rw [← hD]
  apply find?_range'_firstSome
  intro j hj
  have hjn : i + 1 + j < pairs.length := by
    rw [List.length_drop, slotsOf_length] at hj
    omega
  rw [getD_drop, slotsOf_getD, if_pos hjn]
  by_cases h : i + 1 + j ∈ merged <;> simp [h]


theorem leftNb_spec (merged : List ℕ) (i l : ℕ) (h : leftNb merged i = some l) :
    l < i ∧ merged.contains l = false := by
  unfold leftNb at h
  have hm := List.mem_of_find?_eq_some h
  have hp := List.find?_some h
  constructor
  · have : l ∈ List.range i := by simpa using hm
    simpa using this
  · simpa using hp

theorem rightNb_spec (merged : List ℕ) (cap i r : ℕ) (h : rightNb merged cap i = some r) :
    i < r ∧ r < cap ∧ merged.contains r = false := by
  unfold rightNb at h
  have hm := List.mem_of_find?_eq_some h
  have hp := List.find?_some h
  rw [List.mem_range'_1] at hm
  exact ⟨by omega, by omega, by simpa using hp⟩

theorem contains_of_setInsert_false (merged : List ℕ) (i j : ℕ)
    (h : (setInsert merged i).contains j = false) : merged.contains j = false := by
  rw [contains_setInsert] at h
  rcases Bool.or_eq_false_iff.mp h with ⟨_, h2⟩
  exact h2

/-- The loop body acts on the slot view exactly as `slotStep`. -/
theorem slotsOf_bpeStep (pairs : List (WStr × WStr)) (merged : List ℕ) (i : ℕ)
    (hi : i < pairs.length) (hmi : merged.contains i = false) :
    slotsOf (bpeStep pairs merged i).1 (bpeStep pairs merged i).2 =
      slotStep (slotsOf pairs merged) i := by
  have hS1 : slotsOf pairs (setInsert merged i) = (slotsOf pairs merged).set i none :=
    slotsOf_setInsert pairs merged i
  have hX : slotX (slotsOf pairs merged) i =
      (pairs.getD i ([], [])).1 ++ (pairs.getD i ([], [])).2 := by
    unfold slotX
    rw [slotsOf_getD, if_pos hi, hmi]
    simp
  have hleft : leftNb (setInsert merged i) i =
      prevSome ((slotsOf pairs merged).set i none) i := by
    rw [leftNb_eq_prevSome pairs (setInsert merged i) i (by omega), hS1]
  have hright : rightNb (setInsert merged i) pairs.length i =
      nextSome ((slotsOf pairs merged).set i none) i := by
    rw [rightNb_eq_nextSome pairs (setInsert merged i) i, hS1]
  have hgetS : ∀ j, j < pairs.length → (setInsert merged i).contains j = false →
      ((slotsOf pairs merged).set i none).getD j none = some (pairs.getD j ([], [])) := by
    intro j hj hcj
    have hji : j ≠ i := by
      rw [contains_setInsert] at hcj
      rcases Bool.or_eq_false_iff.mp hcj with ⟨h1, _⟩
      simpa using h1
    rw [getD_set_ne _ _ _ _ _ (by omega), slotsOf_getD, if_pos hj,
      contains_of_setInsert_false merged i j hcj]
    simp
  unfold slotStep
  rw [← hleft, ← hright]
  cases hl : leftNb (setInsert merged i) i with
  | none =>
    cases hr : rightNb (setInsert merged i) pairs.length i with
    | none =>
      simp only [bpeStep, hl, hr, slotPatchL, slotPatchR]
      rw [hS1]
    | some r =>
      obtain ⟨hir, hrn, hcr⟩ := rightNb_spec (setInsert merged i) pairs.length i r hr
      simp only [bpeStep, hl, hr, slotPatchL, slotPatchR]
      rw [slotsOf_set pairs (setInsert merged i) r _ hcr hrn, hS1, hgetS r hrn hcr, hX]
      simp only [Option.getD_some]
  | some l =>
    obtain ⟨hli, hcl⟩ := leftNb_spec (setInsert merged i) i l hl
    have hln : l < pairs.length := by omega
    cases hr : rightNb (setInsert merged i) pairs.length i with
    | none =>
      simp only [bpeStep, hl, hr, slotPatchL, slotPatchR]
      rw [slotsOf_set pairs (setInsert merged i) l _ hcl hln, hS1, hgetS l hln hcl, hX]
      simp only [Option.getD_some]
    | some r =>
      obtain ⟨hir, hrn, hcr⟩ := rightNb_spec (setInsert merged i) pairs.length i r hr
      have hlr : l ≠ r := by omega
      simp only [bpeStep, hl, hr, slotPatchL, slotPatchR]
      rw [slotsOf_set _ (setInsert merged i) r _ hcr (by rw [List.length_set]; exact hrn),
        slotsOf_set pairs (setInsert merged i) l _ hcl hln, hS1, hgetS l hln hcl,
        getD_set_ne pairs l r _ ([], []) hlr,
        getD_set_ne ((slotsOf pairs merged).set i none) l r _ none hlr,
        hgetS r hrn hcr, hX]
      simp only [Option.getD_some]


/-! ### The naive algorithm performs the same surgery -/

theorem getPairsS_cons_cons (a b : WStr) (t : List WStr) :
    getPairsS (a :: b :: t) = (a, b) :: getPairsS (b :: t) := rfl

theorem getPairsS_length (s : List WStr) : (getPairsS s).length = s.length - 1 := by
  unfold getPairsS
  rw [List.length_zip, List.length_tail]
  omega

theorem getPairsS_cons_of_ne_nil (a : WStr) (M : List WStr) (h : M ≠ []) :
    getPairsS (a :: M) = (a, M.getD 0 []) :: getPairsS M := by
  cases M with
  | nil => exact absurd rfl h
  | cons b t => rfl

theorem getPairsS_map_snd (x : WStr) (r : List WStr) :
    (getPairsS (x :: r)).map (·.2) = r := by
  induction r generalizing x with
  | nil => rfl
  | cons y r ih =>
    rw [getPairsS_cons_cons, List.map_cons, ih y]

theorem getPairsS_unzip (s : List WStr) (p : WStr × WStr) (L' : List (WStr × WStr))
    (h : getPairsS s = p :: L') : s = p.1 :: p.2 :: L'.map (·.2) := by
  cases s with
  | nil => cases h
  | cons a M =>
    cases M with
    | nil => cases h
    | cons b t =>
      rw [getPairsS_cons_cons] at h
      have h1 : p = (a, b) := by
        have := congrArg (fun l => List.headD l (([], []) : WStr × WStr)) h
        simpa using this.symm
      have h2 : L' = getPairsS (b :: t) := by
        have := congrArg List.tail h
        simpa using this.symm
      subst h1
      subst h2
      rw [getPairsS_map_snd]

theorem mergeAt_cons_succ (a : WStr) (s : List WStr) (k : ℕ) :
    mergeAt (a :: s) (k + 1) = a :: mergeAt s k := rfl

theorem mergeAt_length (s : List WStr) (k : ℕ) (h : k + 1 < s.length) :
    (mergeAt s k).length = s.length - 1 := by
  unfold mergeAt
  rw [List.length_append, List.length_append, List.length_take, List.length_drop]
  rw [List.length_cons, List.length_nil]
  omega

theorem mergeAt_ne_nil (s : List WStr) (k : ℕ) : mergeAt s k ≠ [] := by
  unfold mergeAt
  intro h
  have := congrArg List.length h
  rw [List.length_append, List.length_append, List.length_cons] at this
  simp at this

theorem take_getD_getD_drop (s : List WStr) :
    ∀ k, k + 1 < s.length →
    s.take k ++ s.getD k [] :: s.getD (k + 1) [] :: s.drop (k + 2) = s := by
  induction s with
  | nil => intro k hk; simp at hk
  | cons a t ih =>
    intro k hk
    cases k with
    | zero =>
      rw [List.take_zero, List.nil_append, List.getD_cons_zero, List.getD_cons_succ]
      cases t with
      | nil => simp at hk
      | cons b t' => rfl
    | succ k =>
      rw [List.take_succ_cons, List.getD_cons_succ, List.getD_cons_succ, List.cons_append,
        show (a :: t).drop (k + 1 + 2) = t.drop (k + 2) from rfl,
        ih k (by simpa using hk)]

theorem mergeAt_flatten (s : List WStr) (k : ℕ) (h : k + 1 < s.length) :
    (mergeAt s k).flatten = s.flatten := by
  conv_rhs => rw [← take_getD_getD_drop s k h]
  unfold mergeAt
  rw [List.flatten_append, List.flatten_append, List.flatten_cons, List.flatten_nil,
    List.flatten_append, List.flatten_cons, List.flatten_cons]
  rw [List.append_nil, List.append_assoc, List.append_assoc]

theorem pairSurgery_zero_cons_cons (p q : WStr × WStr) (L : List (WStr × WStr)) :
    pairSurgery (p :: q :: L) 0 = (p.1 ++ p.2, q.2) :: L := by
  unfold pairSurgery
  rw [if_pos (show 0 + 1 < (p :: q :: L).length by
    rw [List.length_cons, List.length_cons]; omega)]
  rw [if_pos rfl]
  rfl

theorem getPairsS_mergeAt (s : List WStr) :
    ∀ k, k < (getPairsS s).length →
    getPairsS (mergeAt s k) = pairSurgery (getPairsS s) k := by
  induction s with
  | nil => intro k hk; simp [getPairsS] at hk
  | cons a s ih =>
    intro k hk
    cases s with
    | nil => simp [getPairsS] at hk
    | cons b t =>
      cases k with
      | zero =>
        rw [show mergeAt (a :: b :: t) 0 = (a ++ b) :: t from rfl]
        cases t with
        | nil => rfl
        | cons c t' =>
          rw [getPairsS_cons_cons, getPairsS_cons_cons, getPairsS_cons_cons,
            pairSurgery_zero_cons_cons]
      | succ k =>
        rw [mergeAt_cons_succ, getPairsS_cons_cons, pairSurgery_cons_succ]
        have hk' : k < (getPairsS (b :: t)).length := by
          rw [getPairsS_cons_cons, List.length_cons] at hk
          omega
        rw [← ih k hk']
        have hlen : k + 1 < (b :: t).length := by
          rw [getPairsS_length] at hk'
          rw [List.length_cons]
          rw [List.length_cons] at hk'
          omega
        have hne : mergeAt (b :: t) k ≠ [] := mergeAt_ne_nil (b :: t) k
        rw [getPairsS_cons_of_ne_nil a _ hne]
        congr 1
        cases k with
        | zero =>
          rw [if_pos rfl]
          cases t with
          | nil => simp [getPairsS_length] at hk'
          | cons c t' => rfl
        | succ k =>
          rw [if_neg (by omega)]
          rfl

/-! ### The output walk reads off the naive symbol sequence -/

theorem snd_flatten (T : List (Option (WStr × WStr))) :
    ((List.range T.length).map fun j =>
      (match T.getD j none with
       | none => ([] : List WStr)
       | some q => [q.2])).flatten = T.reduceOption.map (·.2) := by
  induction T with
  | nil => rfl
  | cons o T ih =>
    rw [show (o :: T).length = T.length + 1 from rfl, List.range_succ_eq_map, List.map_cons,
      List.map_map, List.flatten_cons]
    simp only [Function.comp_def, Nat.succ_eq_add_one, List.getD_cons_succ]
    rw [ih]
    cases o with
    | none =>
      rw [List.reduceOption_cons_of_none]
      rfl
    | some q =>
      rw [List.reduceOption_cons_of_some]
      rfl

theorem prevSome_cons_none {α : Type} (T : List (Option α)) (i : ℕ) :
    (prevSome ((none : Option α) :: T) (i + 1) = none) ↔ prevSome T i = none := by
  rw [prevSome_cons]
  cases hp : prevSome T i <;> simp

theorem prevSome_cons_some_ne {α : Type} (a : α) (T : List (Option α)) (i : ℕ) :
    (prevSome (some a :: T) (i + 1) = none) ↔ False := by
  rw [prevSome_cons]
  cases hp : prevSome T i <;> simp

theorem emitS_eq (S : List (Option (WStr × WStr))) :
    ((List.range S.length).map fun j =>
      (match S.getD j none with
       | none => ([] : List WStr)
       | some p => (if prevSome S j = none then [p.1] else []) ++ [p.2])).flatten =
      (match S.reduceOption with
       | [] => []
       | p :: L' => p.1 :: p.2 :: L'.map (·.2)) := by
  induction S with
  | nil => rfl
  | cons o T ih =>
    rw [show (o :: T).length = T.length + 1 from rfl, List.range_succ_eq_map, List.map_cons,
      List.map_map, List.flatten_cons]
    cases o with
    | none =>
      simp only [Function.comp_def, Nat.succ_eq_add_one, List.getD_cons_succ,
        prevSome_cons_none]
      rw [ih, List.reduceOption_cons_of_none]
      rfl
    | some p =>
      simp only [Function.comp_def, Nat.succ_eq_add_one, List.getD_cons_succ,
        prevSome_cons_some_ne, if_false, List.nil_append]
      rw [snd_flatten, List.reduceOption_cons_of_some]
      rfl

theorem emitSlots_eq (pairs : List (WStr × WStr)) (merged : List ℕ) :
    emitSlots pairs merged =
      (match (slotsOf pairs merged).reduceOption with
       | [] => []
       | p :: L' => p.1 :: p.2 :: L'.map (·.2)) := by
  rw [← emitS_eq]
  unfold emitSlots
  rw [slotsOf_length]
  congr 1
  apply List.map_congr_left
  intro j hj
  rw [List.mem_range] at hj
  rw [← leftNb_eq_prevSome pairs merged j (by omega)]
  rw [slotsOf_getD, if_pos hj]
  by_cases h : merged.contains j = true
  · rw [if_pos h, h]
    rfl
  · rw [if_neg h]
    rw [show merged.contains j = false by simpa using h]
    rfl


/-! ### The merge loop refines the naive greedy algorithm -/

theorem selectSlot_lt (scores : List (Option ℕ)) (i : ℕ)
    (h : selectSlot scores = some i) : i < scores.length := by
  unfold selectSlot at h
  cases hm : minsc scores with
  | none => rw [hm] at h; cases h
  | some m =>
    rw [hm] at h
    exact (selIdx_spec m scores i h).1

theorem getPairs_eq_getPairsS : ∀ token : WStr,
    getPairs token = getPairsS (token.map fun c => [c])
  | [] => rfl
  | [_] => rfl
  | a :: b :: t => by
    rw [show getPairs (a :: b :: t) = ([a], [b]) :: getPairs (b :: t) from rfl,
      getPairs_eq_getPairsS (b :: t)]
    rfl

theorem length_eraseIdx_of_lt {α : Type} : ∀ (l : List α) (k : ℕ), k < l.length →
    (l.eraseIdx k).length = l.length - 1 := by
  intro l
  induction l with
  | nil => intro k hk; simp at hk
  | cons a t ih =>
    intro k hk
    cases k with
    | zero =>
      rw [show (a :: t).eraseIdx 0 = t from rfl, List.length_cons]
      omega
    | succ k =>
      have hk' : k < t.length := by rw [List.length_cons] at hk; omega
      rw [show (a :: t).eraseIdx (k + 1) = a :: t.eraseIdx k from rfl, List.length_cons,
        List.length_cons, ih k hk']
      omega

theorem pairSurgery_length (L : List (WStr × WStr)) (k : ℕ) (hk : k < L.length) :
    (pairSurgery L k).length = L.length - 1 := by
  unfold pairSurgery
  by_cases h1 : k + 1 < L.length
  · rw [if_pos h1, List.length_set]
    by_cases hk0 : k = 0
    · rw [if_pos hk0, length_eraseIdx_of_lt L k hk]
    · rw [if_neg hk0, List.length_set, length_eraseIdx_of_lt L k hk]
  · rw [if_neg h1]
    by_cases hk0 : k = 0
    · rw [if_pos hk0, length_eraseIdx_of_lt L k hk]
    · rw [if_neg hk0, List.length_set, length_eraseIdx_of_lt L k hk]

theorem setInsert_length (merged : List ℕ) (i : ℕ) (h : merged.contains i = false) :
    (setInsert merged i).length = merged.length + 1 := by
  unfold setInsert
  rw [if_neg (show ¬ (merged.contains i = true) by rw [h]; simp), List.length_cons]

theorem bpeStep_fst_length (pairs : List (WStr × WStr)) (merged : List ℕ) (i : ℕ) :
    (bpeStep pairs merged i).1.length = pairs.length := by
  cases hl : leftNb (setInsert merged i) i <;>
    cases hr : rightNb (setInsert merged i) pairs.length i <;>
    simp only [bpeStep, hl, hr] <;>
    simp [List.length_set]

theorem exists_singleton_of_getPairsS_nil (s : List WStr) (hne : s ≠ [])
    (h : getPairsS s = []) : ∃ x, s = [x] := by
  cases s with
  | nil => exact absurd rfl hne
  | cons x t =>
    cases t with
    | nil => exact ⟨x, rfl⟩
    | cons y t' =>
      rw [getPairsS_cons_cons] at h
      cases h

theorem naiveBPE_eq (ranks : Ranks) (s : List WStr) :
    naiveBPE ranks s =
      (match selectSlot ((getPairsS s).map (rankOf ranks)) with
       | none => s
       | some k => naiveBPE ranks (mergeAt s k)) := by
  unfold naiveBPE
  cases hs : s.length with
  | zero =>
    have hsn : s = [] := List.length_eq_zero.mp hs
    subst hsn
    rfl
  | succ n =>
    simp only [naiveLoop]
    cases hsel : selectSlot ((getPairsS s).map (rankOf ranks)) with
    | none => rfl
    | some k =>
      have hk : k < (getPairsS s).length := by
        have h1 := selectSlot_lt ((getPairsS s).map (rankOf ranks)) k hsel
        rw [List.length_map] at h1
        exact h1
      have hk1 : k + 1 < s.length := by
        have h2 := getPairsS_length s
        omega
      show naiveLoop ranks n (mergeAt s k) = naiveBPE ranks (mergeAt s k)
      unfold naiveBPE
      rw [mergeAt_length s k hk1, hs, Nat.add_sub_cancel]

/-- The imperative merge loop, final test and output walk of `BPE::bpe`
compute the naive greedy algorithm, given the slot invariants. -/
theorem bpeLoop_naive (ranks : Ranks) (fuel : ℕ) :
    ∀ (pairs : List (WStr × WStr)) (merged : List ℕ) (s : List WStr) (token : WStr),
    (slotsOf pairs merged).reduceOption = getPairsS s →
    s.flatten = token →
    merged.length + (slotsOf pairs merged).reduceOption.length = pairs.length →
    (slotsOf pairs merged).reduceOption.length ≤ fuel →
    s ≠ [] →
    (if (bpeLoop ranks fuel pairs merged).2.length = (bpeLoop ranks fuel pairs merged).1.length
     then [token]
     else emitSlots (bpeLoop ranks fuel pairs merged).1 (bpeLoop ranks fuel pairs merged).2) =
      naiveBPE ranks s := by
  induction fuel with
  | zero =>
    intro pairs merged s token hIA hIB hC hF hne
    have hcnt : (slotsOf pairs merged).reduceOption.length = 0 := Nat.le_zero.mp hF
    have hps : getPairsS s = [] := by
      rw [← hIA]
      exact List.length_eq_zero.mp hcnt
    obtain ⟨x, hx⟩ := exists_singleton_of_getPairsS_nil s hne hps
    subst hx
    rw [List.flatten_cons, List.flatten_nil, List.append_nil] at hIB
    subst hIB
    rw [show bpeLoop ranks 0 pairs merged = (pairs, merged) from rfl]
    rw [if_pos (show (pairs, merged).2.length = (pairs, merged).1.length by
      show merged.length = pairs.length
      omega)]
    rfl
  | succ fuel ih =>
    intro pairs merged s token hIA hIB hC hF hne
    have hsel0 : selectSlot (slotScores ranks pairs merged) =
        (selectSlot ((getPairsS s).map (rankOf ranks))).map
          (nthSomeIdx (slotsOf pairs merged)) := by
      rw [slotScores_eq, selectSlot_expand, hIA]
    cases hsel : selectSlot ((getPairsS s).map (rankOf ranks)) with
    | none =>
      have hsel1 : selectSlot (slotScores ranks pairs merged) = none := by
        rw [hsel0, hsel]
        rfl
      have hloop : bpeLoop ranks (fuel + 1) pairs merged = (pairs, merged) := by
        rw [show bpeLoop ranks (fuel + 1) pairs merged =
            (match selectSlot (slotScores ranks pairs merged) with
             | none => (pairs, merged)
             | some i => bpeLoop ranks fuel (bpeStep pairs merged i).1
                 (bpeStep pairs merged i).2) from rfl, hsel1]
      rw [hloop]
      show (if merged.length = pairs.length then [token] else emitSlots pairs merged) =
        naiveBPE ranks s
      rw [naiveBPE_eq ranks s, hsel]
      by_cases hall : merged.length = pairs.length
      · rw [if_pos hall]
        have hcnt : (slotsOf pairs merged).reduceOption.length = 0 := by omega
        have hps : getPairsS s = [] := by
          rw [← hIA]
          exact List.length_eq_zero.mp hcnt
        obtain ⟨x, hx⟩ := exists_singleton_of_getPairsS_nil s hne hps
        subst hx
        rw [List.flatten_cons, List.flatten_nil, List.append_nil] at hIB
        subst hIB
        rfl
      · rw [if_neg hall]
        have hcnt : (slotsOf pairs merged).reduceOption.length ≠ 0 := by omega
        rw [emitSlots_eq, hIA]
        cases hps : getPairsS s with
        | nil =>
          rw [hIA] at hcnt
          rw [hps] at hcnt
          simp at hcnt
        | cons p L' =>
          show p.1 :: p.2 :: L'.map (·.2) = s
          exact (getPairsS_unzip s p L' hps).symm
    | some k =>
      set i := nthSomeIdx (slotsOf pairs merged) k with hi
      have h1 := selectSlot_lt ((getPairsS s).map (rankOf ranks)) k hsel
      rw [List.length_map] at h1
      have hkcnt : k < (slotsOf pairs merged).reduceOption.length := by
        rw [hIA]
        exact h1
      have hkgp : k < (getPairsS s).length := h1
      have hk1 : k + 1 < s.length := by
        have h2 := getPairsS_length s
        omega
      have hsel1 : selectSlot (slotScores ranks pairs merged) = some i := by
        rw [hsel0, hsel]
        rfl
      have hilt : i < pairs.length := by
        have h2 := nthSomeIdx_lt (slotsOf pairs merged) k hkcnt
        rw [slotsOf_length] at h2
        rw [← hi] at h2
        exact h2
      have hgd : (slotsOf pairs merged).getD i none =
          some ((slotsOf pairs merged).reduceOption.getD k ([], [])) := by
        rw [hi]
        exact getD_nthSomeIdx (slotsOf pairs merged) k ([], []) hkcnt
      have hmi : merged.contains i = false := by
        by_cases hc : merged.contains i = true
        · rw [slotsOf_getD, if_pos hilt, if_pos hc] at hgd
          simp at hgd
        · simpa using hc
      have hloop : bpeLoop ranks (fuel + 1) pairs merged =
          bpeLoop ranks fuel (bpeStep pairs merged i).1 (bpeStep pairs merged i).2 := by
        rw [show bpeLoop ranks (fuel + 1) pairs merged =
            (match selectSlot (slotScores ranks pairs merged) with
             | none => (pairs, merged)
             | some j => bpeLoop ranks fuel (bpeStep pairs merged j).1
                 (bpeStep pairs merged j).2) from rfl, hsel1]
      rw [hloop]
      have hstep : slotsOf (bpeStep pairs merged i).1 (bpeStep pairs merged i).2 =
          slotStep (slotsOf pairs merged) i :=
        slotsOf_bpeStep pairs merged i hilt hmi
      have hred : (slotStep (slotsOf pairs merged) i).reduceOption =
          pairSurgery (slotsOf pairs merged).reduceOption k := by
        rw [hi]
        exact reduceOption_slotStep (slotsOf pairs merged) k hkcnt
      have hIA2 : (slotsOf (bpeStep pairs merged i).1 (bpeStep pairs merged i).2).reduceOption =
          getPairsS (mergeAt s k) := by
        rw [hstep, hred, hIA, getPairsS_mergeAt s k hkgp]
      have hIB2 : (mergeAt s k).flatten = token := by
        rw [mergeAt_flatten s k hk1, hIB]
      have hC2 : merged.length + (getPairsS s).length = pairs.length := by
        rw [hIA] at hC
        exact hC
      have hC3 : (bpeStep pairs merged i).2.length +
          (slotsOf (bpeStep pairs merged i).1 (bpeStep pairs merged i).2).reduceOption.length =
          (bpeStep pairs merged i).1.length := by
        rw [hIA2, bpeStep_fst_length,
          show (bpeStep pairs merged i).2 = setInsert merged i from rfl,
          setInsert_length merged i hmi,
          getPairsS_mergeAt s k hkgp, pairSurgery_length (getPairsS s) k hkgp]
        omega
      have hF2 : (slotsOf (bpeStep pairs merged i).1
          (bpeStep pairs merged i).2).reduceOption.length ≤ fuel := by
        rw [hIA2, getPairsS_mergeAt s k hkgp, pairSurgery_length (getPairsS s) k hkgp]
        have h3 : (slotsOf pairs merged).reduceOption.length = (getPairsS s).length := by
          rw [hIA]
        omega
      rw [ih (bpeStep pairs merged i).1 (bpeStep pairs merged i).2 (mergeAt s k) token
        hIA2 hIB2 hC3 hF2 (mergeAt_ne_nil s k)]
      rw [naiveBPE_eq ranks s, hsel]


theorem map_range_getD {α β : Type} (f : α → β) (d : α) :
    ∀ l : List α, (List.range l.length).map (fun i => f (l.getD i d)) = l.map f := by
  intro l
  induction l with
  | nil => rfl
  | cons a t ih =>
    rw [List.length_cons, List.range_succ_eq_map, List.map_cons, List.map_map]
    simp only [Function.comp_def, Nat.succ_eq_add_one, List.getD_cons_succ,
      List.getD_cons_zero]
    rw [ih]
    rfl

theorem slotsOf_nil (pairs : List (WStr × WStr)) : slotsOf pairs [] = pairs.map some := by
  unfold slotsOf
  exact Eq.trans (List.map_congr_left fun j hj => rfl) (map_range_getD some ([], []) pairs)

theorem reduceOption_map_some {α : Type} : ∀ l : List α, (l.map some).reduceOption = l := by
  intro l
  induction l with
  | nil => rfl
  | cons a t ih => rw [List.map_cons, List.reduceOption_cons_of_some, ih]

theorem flatten_map_singleton : ∀ token : WStr, (token.map fun c => [c]).flatten = token := by
  intro token
  induction token with
  | nil => rfl
  | cons c t ih =>
    rw [List.map_cons, List.flatten_cons, ih]
    rfl

/-- `BPE::bpe` computes the naive greedy algorithm on the single-character
decomposition of a nonempty token. -/
theorem bpe_eq_naive (ranks : Ranks) (token : WStr) (hne : token ≠ []) :
    bpe ranks token = naiveBPE ranks (token.map fun c => [c]) := by
  show (if (bpeLoop ranks (getPairs token).length (getPairs token) []).2.length =
        (bpeLoop ranks (getPairs token).length (getPairs token) []).1.length
      then [token]
      else emitSlots (bpeLoop ranks (getPairs token).length (getPairs token) []).1
        (bpeLoop ranks (getPairs token).length (getPairs token) []).2) =
      naiveBPE ranks (token.map fun c => [c])
  apply bpeLoop_naive
  · rw [slotsOf_nil, reduceOption_map_some, getPairs_eq_getPairsS]
  · exact flatten_map_singleton token
  · rw [slotsOf_nil, reduceOption_map_some]
    simp
  · rw [slotsOf_nil, reduceOption_map_some]
  · intro hmap
    exact hne (List.map_eq_nil_iff.mp hmap)


/-! ## File loading (`BPE::loadMergeRules`, `BPE::loadVocab`)

A text file is modelled by the list of lines `std::getline` yields: a missing
or unreadable file gives a failed stream, on which `getline` immediately
fails, i.e. the empty line list.  A thrown exception (from `utf8ToWString` or
`std::stoi`) aborts construction: `none`. -/

/-- All-or-nothing effectful map (a loop whose body may throw). -/
def mapOpt {α β : Type} (f : α → Option β) : List α → Option (List β)
  | [] => some []
  | a :: t =>
    match f a with
    | none => none
    | some b => (mapOpt f t).map (b :: ·)

/-- `std::isspace` (default locale): space and `\t\n\v\f\r`. -/
def isSpaceByte (b : ℕ) : Bool := decide (b = 32 ∨ (9 ≤ b ∧ b ≤ 13))

/-- `[0-9]` on bytes. -/
def isDigitByte (b : ℕ) : Bool := decide (48 ≤ b ∧ b ≤ 57)

/-- The leading digit run of `std::stoi`, valued in base 10. -/
def stoiNat (r : Str) : Option ℤ :=
  match r.takeWhile isDigitByte with
  | [] => none
  | ds => some (ds.foldl (fun a d => a * 10 + ((d : ℤ) - 48)) 0)

/-- `std::stoi`: skip leading whitespace, optional sign, then a nonempty
digit run (otherwise it throws `std::invalid_argument`). -/
def stoi (s : Str) : Option ℤ :=
  match s.dropWhile isSpaceByte with
  | 43 :: r => stoiNat r
  | 45 :: r => (stoiNat r).map (fun n => -n)
  | r => stoiNat r

/-- `line.find(' ')` and the two `substr` calls of `loadMergeRules`.  When the
line has no space, `find` gives `npos` and `substr(npos + 1)` wraps to
`substr(0)`: both halves are the whole line. -/
def splitAtSpace (line : Str) : Str × Str :=
  match List.findIdx? (fun b => decide (b = 32)) line with
  | some d => (line.take d, line.drop (d + 1))
  | none => (line, line)

/-- The `getline` loop of `BPE::loadMergeRules`: line `0` is skipped as the
version comment; line `n` (`n ≥ 1`) is split at its first space, both halves
are UTF-8 decoded, and the pair is inserted with rank `n` (the source stores
`n - 1` after `n++`, i.e. the pre-increment counter). -/
def loadMergeRulesLoop : List Str → ℕ → Ranks → Option Ranks
  | [], _, acc => some acc
  | line :: rest, n, acc =>
    if n > 0 then
      match utf8ToWString (splitAtSpace line).1, utf8ToWString (splitAtSpace line).2 with
      | some wf, some ws => loadMergeRulesLoop rest (n + 1) (alInsert acc (wf, ws) n)
      | _, _ => none
    else loadMergeRulesLoop rest (n + 1) acc

/-- `BPE::loadMergeRules` on a file's lines. -/
def loadMergeRules (lines : List Str) : Option Ranks := loadMergeRulesLoop lines 0 []

/-- The `getline` loop of `BPE::loadVocab`: even lines are remembered as the
token, odd lines are parsed with `std::stoi` and inserted into both maps. -/
def loadVocabLoop : List Str → Str → ℕ → List (Str × ℤ) → List (ℤ × Str) →
    Option (List (Str × ℤ) × List (ℤ × Str))
  | [], _, _, t2i, i2t => some (t2i, i2t)
  | line :: rest, token, n, t2i, i2t =>
    if n % 2 = 0 then loadVocabLoop rest line (n + 1) t2i i2t
    else
      match stoi line with
      | none => none
      | some v => loadVocabLoop rest token (n + 1) (alInsert t2i token v) (alInsert i2t v token)

/-- `BPE::loadVocab` on a file's lines (`token` starts as the empty string). -/
def loadVocab (lines : List Str) : Option (List (Str × ℤ) × List (ℤ × Str)) :=
  loadVocabLoop lines [] 0 [] []

/-- The member tables of a constructed `BPE` object. -/
structure St where
  bpeRanks : Ranks
  b2u : List (ℕ × ℕ)
  u2b : List (ℕ × ℕ)
  t2i : List (Str × ℤ)
  i2t : List (ℤ × Str)

/-- The lines a (possibly missing) file yields: a failed stream reads no
lines. -/
def fileLines : Option (List Str) → List Str
  | none => []
  | some ls => ls

/-- The `BPE` constructor: `loadMergeRules`, `loadVocab`, `bytesToUnicode`. -/
def bpeConstruct (mergesFile vocabsFile : Option (List Str)) : Option St :=
  match loadMergeRules (fileLines mergesFile) with
  | none => none
  | some ranks =>
    match loadVocab (fileLines vocabsFile) with
    | none => none
    | some tables => some ⟨ranks, b2uTable, u2bTable, tables.1, tables.2⟩

/-- `main.cpp`'s startup: `validateFileExistence` exits fatally on a missing
merge-rules or vocabulary file before the `BPE` constructor runs. -/
def startupTokenizer (mergesFile vocabsFile : Option (List Str)) : Option St :=
  match mergesFile with
  | none => none
  | some ml =>
    match vocabsFile with
    | none => none
    | some vl => bpeConstruct (some ml) (some vl)

/-! ## `BPE::encode` / `BPE::decode` -/

/-- `text.find(eot, s)` on the remaining text: the first position where `eot`
occurs (an empty needle matches immediately). -/
def findSub (text eot : Str) : Option ℕ :=
  (List.range (text.length + 1)).find? fun i => eot.isPrefixOf (text.drop i)

/-- The eot-splitting `while` loop of `BPE::encode`, producing the segments
between marker occurrences.  The loop has no bound of its own; fuel counts
its iterations, and `none` marks a loop still running after `fuel` steps. -/
def splitLoop : ℕ → Str → Str → Option (List Str)
  | 0, _, _ => none
  | fuel + 1, text, eot =>
    match findSub text eot with
    | none => some [text]
    | some i => (splitLoop fuel (text.drop (i + eot.length)) eot).map (text.take i :: ·)

/-- `BPE::byteEncodeToken`: map each byte through `m_b2u` (`m_b2u.at` throws
on a missing byte). -/
def byteEncodeToken (b2u : List (ℕ × ℕ)) (token : Str) : Option WStr :=
  mapOpt (fun c => alFind b2u (c % 256)) token

/-- `BPE::tokenize` on one segment: UTF-8 decode, pretokenize, byte-encode
each pretoken, run `bpe`, and emit each symbol re-encoded as UTF-8. -/
def tokenizeSeg (st : St) (text : Str) : Option (List Str) :=
  match utf8ToWString text with
  | none => none
  | some wtext =>
    (mapOpt (fun wtoken =>
        (byteEncodeToken st.b2u (wstringToUTF8 wtoken)).map fun enc =>
          (bpe st.bpeRanks enc).map wstringToUTF8)
      (pretokenize wtext)).map List.flatten

/-- The token stream of `BPE::encode`: each segment's tokens with the eot
marker string appended verbatim after every segment but the last. -/
def joinToks (eot : Str) : List (List Str) → List Str
  | [] => []
  | [t] => t
  | t :: rest => t ++ eot :: joinToks eot rest

/-- `BPE::encode` up to the token-id lookup. -/
def encodeTokens (st : St) (text eot : Str) : Option (List Str) :=
  match splitLoop (text.length + 1) text eot with
  | none => none
  | some segs => (mapOpt (tokenizeSeg st) segs).map (joinToks eot)

/-- `BPE::encode`: split on the marker, tokenize the segments, and map every
token through `m_t2i` (`.at` throws on an unknown token). -/
def encode (st : St) (text eot : Str) : Option (List ℤ) :=
  (encodeTokens st text eot).bind fun tokens => mapOpt (fun t => alFind st.t2i t) tokens

/-- `BPE::decode`: concatenate `m_i2t` images, UTF-8 decode, and map each
codepoint through `m_u2b`. -/
def decode (st : St) (ids : List ℤ) : Option Str :=
  (mapOpt (fun id => alFind st.i2t id) ids).bind fun strs =>
    match utf8ToWString strs.flatten with
    | none => none
    | some wstr => mapOpt (fun c => alFind st.u2b c) wstr

/-- `BPE::encode` with the object state threaded through: the method reads
the member tables and never assigns to them. -/
def encodeSt (st : St) (text eot : Str) : Option (List ℤ) × St := (encode st text eot, st)

/-- `BPE::decode` with the object state threaded through. -/
def decodeSt (st : St) (ids : List ℤ) : Option Str × St := (decode st ids, st)

/-- The ids of a single segment, tokenized independently. -/
def encodeSeg (st : St) (seg : Str) : Option (List ℤ) :=
  (tokenizeSeg st seg).bind fun toks => mapOpt (fun t => alFind st.t2i t) toks

/-- Join per-segment id lists, inserting the marker id between segments (the
marker id is only consulted when at least one marker occurred). -/
def joinIdsWith (e : Option ℤ) : List (List ℤ) → Option (List ℤ)
  | [] => some []
  | [l] => some l
  | l :: rest =>
    match e with
    | none => none
    | some id => (joinIdsWith e rest).map fun r => l ++ id :: r


/-! ## The eot-splitting loop -/

/-- Join segments with a separator (the text the segments came from). -/
def joinStrs (sep : Str) : List Str → Str
  | [] => []
  | [s] => s
  | s :: rest => s ++ sep ++ joinStrs sep rest

theorem findSub_le (text eot : Str) (i : ℕ) (h : findSub text eot = some i) :
    i + eot.length ≤ text.length := by
  unfold findSub at h
  have hp := List.find?_some h
  have hmem := List.mem_of_find?_eq_some h
  rw [List.mem_range] at hmem
  have hlen := (List.isPrefixOf_iff_prefix.mp hp).length_le
  rw [List.length_drop] at hlen
  omega

theorem findSub_decomp (text eot : Str) (i : ℕ) (h : findSub text eot = some i) :
    text = text.take i ++ eot ++ text.drop (i + eot.length) := by
  unfold findSub at h
  have hp := List.find?_some h
  obtain ⟨t', ht'⟩ := List.isPrefixOf_iff_prefix.mp hp
  have h3 : (text.drop i).drop eot.length = t' := by
    rw [← ht', List.drop_left]
  have h2 : text.drop (i + eot.length) = t' := by
    rw [← h3, List.drop_drop]
  conv_lhs => rw [← List.take_append_drop i text]
  rw [List.append_assoc, h2, ← ht']

/-- With a nonempty marker, each iteration strictly shortens the remaining
text, so the loop ends within `|text|` iterations. -/
theorem splitLoop_isSome (eot : Str) (hne : eot ≠ []) :
    ∀ (fuel : ℕ) (text : Str), text.length < fuel →
    (splitLoop fuel text eot).isSome = true := by
  intro fuel
  induction fuel with
  | zero => intro text h; exact absurd h (Nat.not_lt_zero _)
  | succ fuel ih =>
    intro text h
    cases hf : findSub text eot with
    | none => simp [splitLoop, hf]
    | some i =>
      have hle := findSub_le text eot i hf
      have he0 : eot.length ≠ 0 := fun h0 => hne (List.length_eq_zero.mp h0)
      have hlt : (text.drop (i + eot.length)).length < fuel := by
        rw [List.length_drop]
        omega
      have hrec := ih (text.drop (i + eot.length)) hlt
      simp only [splitLoop, hf]
      cases hs : splitLoop fuel (text.drop (i + eot.length)) eot with
      | none => rw [hs] at hrec; simp at hrec
      | some segs => rfl

/-- With an empty marker, `find` keeps returning the current position and the
loop never ends. -/
theorem splitLoop_empty_eot (text : Str) : ∀ fuel : ℕ, splitLoop fuel text [] = none := by
  intro fuel
  induction fuel with
  | zero => rfl
  | succ fuel ih =>
    have hf : findSub text [] = some 0 := by
      unfold findSub
      rw [List.range_succ_eq_map]
      exact List.find?_cons_of_pos _ (by simp)
    simp only [splitLoop, hf]
    rw [show text.drop (0 + ([] : Str).length) = text from by simp, ih]
    rfl

theorem splitLoop_ne_nil (eot : Str) (fuel : ℕ) (text : Str) (segs : List Str)
    (h : splitLoop fuel text eot = some segs) : segs ≠ [] := by
  cases fuel with
  | zero => cases h
  | succ fuel =>
    cases hf : findSub text eot with
    | none =>
      simp only [splitLoop, hf] at h
      injection h with h1
      subst h1
      simp
    | some i =>
      simp only [splitLoop, hf] at h
      cases hs : splitLoop fuel (text.drop (i + eot.length)) eot with
      | none => rw [hs] at h; simp at h
      | some rest =>
        rw [hs] at h
        rw [Option.map_some'] at h
        injection h with h1
        subst h1
        simp

/-- The segments the loop produces, joined by the marker, are the text. -/
theorem splitLoop_join (eot : Str) :
    ∀ (fuel : ℕ) (text : Str) (segs : List Str),
    splitLoop fuel text eot = some segs → joinStrs eot segs = text := by
  intro fuel
  induction fuel with
  | zero => intro text segs h; cases h
  | succ fuel ih =>
    intro text segs h
    cases hf : findSub text eot with
    | none =>
      simp only [splitLoop, hf] at h
      injection h with h1
      subst h1
      rfl
    | some i =>
      simp only [splitLoop, hf] at h
      cases hs : splitLoop fuel (text.drop (i + eot.length)) eot with
      | none => rw [hs] at h; simp at h
      | some rest =>
        rw [hs] at h
        rw [Option.map_some'] at h
        injection h with h1
        subst h1
        cases rest with
        | nil => exact absurd rfl (splitLoop_ne_nil eot fuel _ [] hs)
        | cons r0 r' =>
          rw [show joinStrs eot (text.take i :: r0 :: r') =
            text.take i ++ eot ++ joinStrs eot (r0 :: r') from rfl]
          rw [ih (text.drop (i + eot.length)) (r0 :: r') hs]
          exact (findSub_decomp text eot i hf).symm

/-- Every byte of every produced segment is a byte of the text. -/
theorem splitLoop_mem (eot : Str) :
    ∀ (fuel : ℕ) (text : Str) (segs : List Str),
    splitLoop fuel text eot = some segs →
    ∀ seg ∈ segs, ∀ b ∈ seg, b ∈ text := by
  intro fuel
  induction fuel with
  | zero => intro text segs h; cases h
  | succ fuel ih =>
    intro text segs h seg hseg b hb
    cases hf : findSub text eot with
    | none =>
      simp only [splitLoop, hf] at h
      injection h with h1
      subst h1
      rw [List.mem_singleton] at hseg
      subst hseg
      exact hb
    | some i =>
      simp only [splitLoop, hf] at h
      cases hs : splitLoop fuel (text.drop (i + eot.length)) eot with
      | none => rw [hs] at h; simp at h
      | some rest =>
        rw [hs] at h
        rw [Option.map_some'] at h
        injection h with h1
        subst h1
        rcases List.mem_cons.mp hseg with h2 | h2
        · subst h2
          exact List.mem_of_mem_take hb
        · exact List.mem_of_mem_drop (ih (text.drop (i + eot.length)) rest hs seg h2 b hb)

/-! ## Claims C2, C3, C4, C9, C10 -/

/-- C2 (amended): every character of a pretokenized segment is covered by
exactly one matched alternative — the matched pretokens concatenate, in
order, to the whole segment — provided the segment has no `_` (codepoint
95): `_` is `\w` but matches no alternative, and `std::regex_search` skips
it. -/
theorem C2_pretokenize_coverage (l : WStr) (h95 : ∀ c ∈ l, c ≠ 95) :
    (pretokenize l).flatten = l :=
  pretokenize_flatten l h95

theorem C2_pretokenize_coverage_witness :
    (∀ c ∈ ([72, 105, 32, 49] : WStr), c ≠ 95) ∧
    (pretokenize [72, 105, 32, 49]).flatten = [72, 105, 32, 49] :=
  ⟨by decide, C2_pretokenize_coverage [72, 105, 32, 49] (by decide)⟩

/-- C2 counterexample: the segment `"_"` is skipped entirely — no alternative
matches codepoint 95, so the concatenation of the matches misses it. -/
theorem C2_underscore_skipped :
    pretokenize [95] = [] ∧ (pretokenize [95]).flatten ≠ [95] := by decide

/-- C3 (amended): `unordered_map::insert` never overwrites, so when the
vocabulary binds a token (or an id) more than once, the EARLIER occurrence
wins: any binding present in the tables is preserved by the rest of the
load loop. -/
theorem C3_vocab_earlier_wins :
    ∀ (lines : List Str) (token : Str) (n : ℕ) (t2i : List (Str × ℤ))
      (i2t : List (ℤ × Str)) (out : List (Str × ℤ) × List (ℤ × Str)),
      loadVocabLoop lines token n t2i i2t = some out →
      (∀ k v, alFind t2i k = some v → alFind out.1 k = some v) ∧
      (∀ id t, alFind i2t id = some t → alFind out.2 id = some t) := by
  intro lines
  induction lines with
  | nil =>
    intro token n t2i i2t out h
    injection h with h1
    subst h1
    exact ⟨fun k v hv => hv, fun id t ht => ht⟩
  | cons line rest ih =>
    intro token n t2i i2t out h
    simp only [loadVocabLoop] at h
    by_cases hn : n % 2 = 0
    · rw [if_pos hn] at h
      exact ih line (n + 1) t2i i2t out h
    · rw [if_neg hn] at h
      cases hv : stoi line with
      | none => rw [hv] at h; cases h
      | some v =>
        rw [hv] at h
        have hrec := ih token (n + 1) (alInsert t2i token v) (alInsert i2t v token) out h
        constructor
        · intro k w hw
          apply hrec.1
          rw [alFind_alInsert, hw]
        · intro id t ht
          apply hrec.2
          rw [alFind_alInsert, ht]

theorem C3_vocab_earlier_wins_witness :
    (loadVocabLoop [[97], [49]] [] 0 [([97], (0 : ℤ))] [((0 : ℤ), [97])] =
      some ([([97], 0)], [(0, [97]), (1, [97])])) ∧
    ((∀ k v, alFind [([97], (0 : ℤ))] k = some v →
        alFind ([([97], (0 : ℤ))], [((0 : ℤ), [97]), ((1 : ℤ), [97])]).1 k = some v) ∧
     (∀ id t, alFind [((0 : ℤ), [97])] id = some t →
        alFind ([([97], (0 : ℤ))], [((0 : ℤ), [97]), ((1 : ℤ), [97])]).2 id = some t)) :=
  ⟨by decide,
   C3_vocab_earlier_wins [[97], [49]] [] 0 [([97], 0)] [(0, [97])]
     ([([97], 0)], [(0, [97]), (1, [97])]) (by decide)⟩

/-- C3 counterexample: a vocabulary that binds token `"a"` first to `0`, then
to `1` — lookup yields the earlier id `0`, not the later `1`: the later
occurrence does NOT overwrite. -/
theorem C3_later_does_not_overwrite :
    (loadVocab [[97], [48], [97], [49]]).map (fun p => alFind p.1 [97]) =
      some (some 0) ∧
    (loadVocab [[97], [48], [97], [49]]).map (fun p => alFind p.1 [97]) ≠
      some (some 1) := by decide

/-- C4 (amended): a missing merge-rules or vocabulary file is fatal at
program startup only because `main.cpp`'s `validateFileExistence` exits
before the constructor runs; when both files exist, startup constructs the
tokenizer exactly as the `BPE` constructor does. -/
theorem C4_missing_file_fatal_at_startup :
    (∀ v, startupTokenizer none v = none) ∧
    (∀ m, startupTokenizer m none = none) ∧
    (∀ ml vl, startupTokenizer (some ml) (some vl) = bpeConstruct (some ml) (some vl)) := by
  refine ⟨fun v => rfl, fun m => ?_, fun ml vl => rfl⟩
  cases m <;> rfl

/-- C4 counterexample: the `BPE` constructor itself does NOT fail on a
missing file — a failed stream reads zero lines, so construction succeeds
with silently empty (degraded) merge and vocabulary tables. -/
theorem C4_construct_succeeds_on_missing_file :
    (bpeConstruct none none).map (fun st => (st.bpeRanks, st.t2i, st.i2t)) =
      some ([], [], []) := rfl

/-- C9: `encode` and `decode` read the five member tables and never assign
them: the threaded state is returned unchanged, whether the call succeeds
or fails. -/
theorem C9_tables_unchanged (st : St) (text eot : Str) (ids : List ℤ) :
    ((encodeSt st text eot).2.bpeRanks = st.bpeRanks ∧
     (encodeSt st text eot).2.b2u = st.b2u ∧
     (encodeSt st text eot).2.u2b = st.u2b ∧
     (encodeSt st text eot).2.t2i = st.t2i ∧
     (encodeSt st text eot).2.i2t = st.i2t) ∧
    ((decodeSt st ids).2.bpeRanks = st.bpeRanks ∧
     (decodeSt st ids).2.b2u = st.b2u ∧
     (decodeSt st ids).2.u2b = st.u2b ∧
     (decodeSt st ids).2.t2i = st.t2i ∧
     (decodeSt st ids).2.i2t = st.i2t) :=
  ⟨⟨rfl, rfl, rfl, rfl, rfl⟩, ⟨rfl, rfl, rfl, rfl, rfl⟩⟩

/-- C10: the eot-splitting loop terminates within `|text| + 1` iterations for
every text when the marker is nonempty (each iteration strictly advances),
and never terminates when the marker is empty (the position never
advances). -/
theorem C10_split_loop_termination :
    (∀ eot : Str, eot ≠ [] → ∀ text : Str,
      (splitLoop (text.length + 1) text eot).isSome = true) ∧
    (∀ (text : Str) (fuel : ℕ), splitLoop fuel text [] = none) :=
  ⟨fun eot hne text => splitLoop_isSome eot hne (text.length + 1) text (Nat.lt_succ_self _),
   fun text fuel => splitLoop_empty_eot text fuel⟩

theorem C10_split_loop_termination_witness :
    (([60] : Str) ≠ [] ∧
      (splitLoop (([97, 60, 98] : Str).length + 1) [97, 60, 98] [60]).isSome = true) ∧
    splitLoop 3 [97, 98] [] = none :=
  ⟨⟨by decide, C10_split_loop_termination.1 [60] (by decide) [97, 60, 98]⟩,
   C10_split_loop_termination.2 [97, 98] 3⟩


/-! ## Claims C5, C6, C7 -/

/-- C5 (amended): for every nonempty token — whose single-character
decomposition is the initial symbol sequence — and every merge-rule table,
the patch-based merge loop over the fixed pair array produces the same final
symbol sequence as the naive greedy algorithm that rebuilds the adjacent-pair
list after every merge. -/
theorem C5_merge_loop_refines_naive (ranks : Ranks) (token : WStr) (hne : token ≠ []) :
    bpe ranks token = naiveBPE ranks (token.map fun c => [c]) :=
  bpe_eq_naive ranks token hne

theorem C5_merge_loop_refines_naive_witness :
    ([97, 98, 99] : WStr) ≠ [] ∧
    bpe [(([97], [98]), 1)] [97, 98, 99] =
      naiveBPE [(([97], [98]), 1)] (([97, 98, 99] : WStr).map fun c => [c]) :=
  ⟨by decide, C5_merge_loop_refines_naive [(([97], [98]), 1)] [97, 98, 99] (by decide)⟩

/-- C5 counterexample: on the empty token the loop's final test
(`merged.size() == pairs.size()`, `0 = 0`) emits the whole empty token as one
symbol, while the naive greedy algorithm returns no symbols at all. -/
theorem C5_empty_token_differs :
    bpe [] [] = [[]] ∧ naiveBPE [] (([] : WStr).map fun c => [c]) = [] ∧
    bpe [] [] ≠ naiveBPE [] (([] : WStr).map fun c => [c]) := by decide

theorem getD_mem_of_some {α : Type} :
    ∀ (l : List (Option α)) (j : ℕ) (v : α), l.getD j none = some v → some v ∈ l := by
  intro l
  induction l with
  | nil => intro j v h; simp at h
  | cons s t ih =>
    intro j v h
    cases j with
    | zero =>
      rw [List.getD_cons_zero] at h
      rw [← h]
      exact List.mem_cons_self s t
    | succ j =>
      rw [List.getD_cons_succ] at h
      exact List.mem_cons_of_mem s (ih j v h)

theorem minsc_none_not_mem :
    ∀ l : List (Option ℕ), minsc l = none → ∀ r : ℕ, some r ∉ l := by
  intro l
  induction l with
  | nil => intro _ r hmem; simp at hmem
  | cons s t ih =>
    intro h r hmem
    cases s with
    | none =>
      simp only [minsc] at h
      rcases List.mem_cons.mp hmem with h1 | h1
      · exact Option.noConfusion h1
      · exact ih h r h1
    | some r' =>
      simp only [minsc] at h
      cases hm : minsc t with
      | none => rw [hm] at h; simp at h
      | some mt => rw [hm] at h; simp at h

theorem minsc_le :
    ∀ (l : List (Option ℕ)) (m : ℕ), minsc l = some m → ∀ r : ℕ, some r ∈ l → m ≤ r := by
  intro l
  induction l with
  | nil => intro m h; cases h
  | cons s t ih =>
    intro m h r hmem
    cases s with
    | none =>
      simp only [minsc] at h
      rcases List.mem_cons.mp hmem with h1 | h1
      · exact Option.noConfusion h1
      · exact ih m h r h1
    | some r' =>
      simp only [minsc] at h
      cases hm : minsc t with
      | none =>
        rw [hm] at h
        injection h with h1
        rcases List.mem_cons.mp hmem with h1m | h1m
        · injection h1m with h2
          omega
        · exact absurd h1m (minsc_none_not_mem t hm r)
      | some mt =>
        rw [hm] at h
        injection h with h1
        rcases List.mem_cons.mp hmem with h1m | h1m
        · injection h1m with h2
          omega
        · have := ih mt hm r h1m
          omega

theorem selIdx_first (m : ℕ) :
    ∀ (l : List (Option ℕ)) (i : ℕ), selIdx m l = some i →
    ∀ j, j < i → l.getD j none ≠ some m := by
  intro l
  induction l with
  | nil => intro i h; cases h
  | cons s t ih =>
    intro i h j hj
    simp only [selIdx] at h
    by_cases hs : s = some m
    · rw [if_pos hs] at h
      injection h with h1
      omega
    · rw [if_neg hs] at h
      cases hsel : selIdx m t with
      | none => rw [hsel] at h; simp at h
      | some i' =>
        rw [hsel] at h
        rw [Option.map_some'] at h
        injection h with h1
        cases j with
        | zero => exact hs
        | succ j =>
          rw [List.getD_cons_succ]
          exact ih i' hsel j (by omega)

/-- C6 (amended): ties between unmerged slots DO occur — equal pairs at
distinct slots share one rank — but the selection loop is still
deterministic: a returned slot holds the minimal finite score and is the
leftmost slot attaining it (the scan only updates on a strictly smaller
score). -/
theorem C6_selection_leftmost_minimum (scores : List (Option ℕ)) (i : ℕ)
    (h : selectSlot scores = some i) :
    ∃ m, minsc scores = some m ∧ scores.getD i none = some m ∧
      (∀ j r, scores.getD j none = some r → m ≤ r) ∧
      (∀ j, j < i → scores.getD j none ≠ some m) := by
  unfold selectSlot at h
  cases hm : minsc scores with
  | none => rw [hm] at h; cases h
  | some m =>
    rw [hm] at h
    exact ⟨m, rfl, (selIdx_spec m scores i h).2,
      fun j r hj => minsc_le scores m hm r (getD_mem_of_some scores j r hj),
      fun j hj => selIdx_first m scores i h j hj⟩

theorem C6_selection_leftmost_minimum_witness :
    selectSlot [some 3, none, some 1, some 1] = some 2 ∧
    (∃ m, minsc [some 3, none, some 1, some 1] = some m ∧
      ([some 3, none, some 1, some 1] : List (Option ℕ)).getD 2 none = some m ∧
      (∀ j r, ([some 3, none, some 1, some 1] : List (Option ℕ)).getD j none = some r →
        m ≤ r) ∧
      (∀ j, j < 2 → ([some 3, none, some 1, some 1] : List (Option ℕ)).getD j none ≠
        some m)) :=
  ⟨by decide, C6_selection_leftmost_minimum [some 3, none, some 1, some 1] 2 (by decide)⟩

/-- C6 counterexample: the token `"abab"` with the (unique-ranked) rule
`(a,b) ↦ 1` gives two distinct unmerged slots, 0 and 2, both holding the
minimal finite rank at the first iteration — a tie, although the rank table
has no duplicate rank. -/
theorem C6_tie_occurs :
    (slotScores [(([97], [98]), 1)] (getPairs [97, 98, 97, 98]) []).getD 0 none = some 1 ∧
    (slotScores [(([97], [98]), 1)] (getPairs [97, 98, 97, 98]) []).getD 2 none = some 1 ∧
    minsc (slotScores [(([97], [98]), 1)] (getPairs [97, 98, 97, 98]) []) = some 1 ∧
    ([(([97], [98]), 1)] : Ranks).map (fun e => e.2) = [1] := by decide

/-- Printable bytes are mapped identically (literal-table form). -/
theorem b2uLit_printable : ∀ b ∈ List.range 127, 33 ≤ b → alFind b2uLit b = some b := by
  decide

/-- Printable codepoints map back to the same byte (literal-table form). -/
theorem u2bLit_printable : ∀ b ∈ List.range 127, 33 ≤ b → alFind u2bLit b = some b := by
  decide

theorem printableByte_lt_256 (b : ℕ) (hp : PrintableByte b) : b < 256 := by
  unfold PrintableByte at hp
  rcases hp with ⟨h1, h2⟩ | ⟨h1, h2⟩ | ⟨h1, h2⟩ <;> omega

set_option maxHeartbeats 1600000

/-- C7: the byte ↔ codepoint maps are total and mutually inverse over the 256
byte values: decoding inverts encoding on every byte, the 256 assigned
codepoints are pairwise distinct, printable bytes map identically, and the
remaining bytes are assigned `256, 257, …` in ascending byte order. -/
theorem C7_byte_map_bijection :
    (∀ b : ℕ, b < 256 → (alFind b2uTable b).bind (alFind u2bTable) = some b) ∧
    (∀ b : ℕ, PrintableByte b → alFind b2uTable b = some b) ∧
    (∀ b : ℕ, b < 256 → ¬ PrintableByte b →
      alFind b2uTable b =
        some (256 + ((List.range b).filter fun c => !(decide (PrintableByte c))).length)) ∧
    (b2uTable.map Prod.snd).Nodup ∧ b2uTable.length = 256 := by
  refine ⟨?_, ?_, ?_, ?_, ?_⟩
  · intro b hb
    rw [b2uTable_eq, u2bTable_eq]
    exact (by decide : ∀ x ∈ List.range 256, (alFind b2uLit x).bind (alFind u2bLit) = some x)
      b (List.mem_range.mpr hb)
  · intro b hp
    rw [b2uTable_eq]
    exact (by decide : ∀ x ∈ List.range 256, PrintableByte x → alFind b2uLit x = some x)
      b (List.mem_range.mpr (printableByte_lt_256 b hp)) hp
  · intro b hb hnp
    rw [b2uTable_eq]
    exact (by decide : ∀ x ∈ List.range 256, ¬ PrintableByte x →
        alFind b2uLit x =
          some (256 + ((List.range x).filter fun c => !(decide (PrintableByte c))).length))
      b (List.mem_range.mpr hb) hnp
  · rw [b2uTable_eq]
    decide
  · rw [b2uTable_eq]
    decide

set_option maxHeartbeats 200000

theorem C7_byte_map_bijection_witness :
    ((0 : ℕ) < 256 ∧ (alFind b2uTable 0).bind (alFind u2bTable) = some 0) ∧
    (PrintableByte 65 ∧ alFind b2uTable 65 = some 65) :=
  ⟨⟨by decide, C7_byte_map_bijection.1 0 (by decide)⟩,
   ⟨by decide, C7_byte_map_bijection.2.1 65 (by decide)⟩⟩


/-! ## Claim C8: the marker id is inserted verbatim between segments -/

theorem mapOpt_append {α β : Type} (f : α → Option β) :
    ∀ (l₁ l₂ : List α), mapOpt f (l₁ ++ l₂) =
      (mapOpt f l₁).bind fun r₁ => (mapOpt f l₂).map (r₁ ++ ·) := by
  intro l₁
  induction l₁ with
  | nil =>
    intro l₂
    rw [List.nil_append]
    cases h : mapOpt f l₂ <;> simp [h, mapOpt]
  | cons a t ih =>
    intro l₂
    rw [List.cons_append]
    cases hf : f a <;> cases ht : mapOpt f t <;> cases h2 : mapOpt f l₂ <;>
      simp [mapOpt, hf, ht, h2, ih]

theorem mapOpt_cons_some {α β : Type} {g : α → Option β} {x : α} {xs : List α}
    {rs : List β} (h : mapOpt g (x :: xs) = some rs) : ∃ y ys, rs = y :: ys := by
  simp only [mapOpt] at h
  cases hg : g x with
  | none => rw [hg] at h; simp at h
  | some y =>
    rw [hg] at h
    cases hxs : mapOpt g xs with
    | none => rw [hxs] at h; simp at h
    | some ys =>
      rw [hxs] at h
      refine ⟨y, ys, ?_⟩
      have h2 : some (y :: ys) = some rs := h
      injection h2 with h3
      exact h3.symm

theorem mapOpt_comp_bind {α β γ : Type} (g : α → Option β) (h : β → Option γ) :
    ∀ l : List α, mapOpt (fun a => (g a).bind h) l = (mapOpt g l).bind (mapOpt h) := by
  intro l
  induction l with
  | nil => rfl
  | cons a t ih =>
    cases hg : g a with
    | none => simp [mapOpt, hg]
    | some b =>
      cases hh : h b with
      | none => cases hgt : mapOpt g t <;> simp [mapOpt, hg, hh, hgt, ih]
      | some c => cases hgt : mapOpt g t <;> simp [mapOpt, hg, hh, hgt, ih]

theorem mapOpt_nil {α β : Type} (f : α → Option β) : mapOpt f ([] : List α) = some [] :=
  rfl

theorem mapOpt_cons {α β : Type} (f : α → Option β) (a : α) (t : List α) :
    mapOpt f (a :: t) =
      (match f a with
       | none => none
       | some b => (mapOpt f t).map (b :: ·)) := rfl

/-- Looking tokens up across the joined stream is looking each segment's
tokens up separately and inserting the marker's own id between segments. -/
theorem mapOpt_joinToks (f : Str → Option ℤ) (eot : Str) :
    ∀ tokss : List (List Str), mapOpt f (joinToks eot tokss) =
      (mapOpt (mapOpt f) tokss).bind (joinIdsWith (f eot)) := by
  intro tokss
  induction tokss with
  | nil => rfl
  | cons t rest ih =>
    cases rest with
    | nil =>
      rw [show joinToks eot [t] = t from rfl, mapOpt_cons (mapOpt f) t []]
      cases ht : mapOpt f t with
      | none => rfl
      | some rt => rfl
    | cons t2 rest2 =>
      rw [show joinToks eot (t :: t2 :: rest2) = t ++ eot :: joinToks eot (t2 :: rest2)
        from rfl]
      rw [mapOpt_append, mapOpt_cons (mapOpt f) t (t2 :: rest2)]
      cases ht : mapOpt f t with
      | none => rfl
      | some rt =>
        rw [mapOpt_cons f eot (joinToks eot (t2 :: rest2))]
        cases he : f eot with
        | none =>
          cases hrest : mapOpt (mapOpt f) (t2 :: rest2) with
          | none => rfl
          | some rs =>
            obtain ⟨y, ys, hys⟩ := mapOpt_cons_some hrest
            subst hys
            rfl
        | some id =>
          cases hrest : mapOpt (mapOpt f) (t2 :: rest2) with
          | none =>
            rw [ih, hrest]
            rfl
          | some rs =>
            obtain ⟨y, ys, hys⟩ := mapOpt_cons_some hrest
            subst hys
            rw [ih, hrest, he]
            show Option.map (fun x => rt ++ x)
                (Option.map (fun x => id :: x) (joinIdsWith (some id) (y :: ys))) =
              (joinIdsWith (some id) (y :: ys)).map (fun r => rt ++ id :: r)
            cases hji : joinIdsWith (some id) (y :: ys) with
            | none => rfl
            | some r => rfl

/-- C8: with a nonempty marker, `encode` splits the text on each literal
marker occurrence, encodes every segment independently, and inserts the
marker's own vocabulary id — looked up verbatim from `m_t2i`, never
byte-mapped or merged — between the segments' id lists, left to right. -/
theorem C8_encode_splits_on_marker (st : St) (eot : Str) (hne : eot ≠ []) (text : Str) :
    encode st text eot =
      (splitLoop (text.length + 1) text eot).bind fun segs =>
        (mapOpt (encodeSeg st) segs).bind (joinIdsWith (alFind st.t2i eot)) := by
  unfold encode encodeTokens
  cases hsp : splitLoop (text.length + 1) text eot with
  | none => rfl
  | some segs =>
    have henc : mapOpt (encodeSeg st) segs =
        (mapOpt (tokenizeSeg st) segs).bind (mapOpt (mapOpt (fun t => alFind st.t2i t))) :=
      mapOpt_comp_bind (tokenizeSeg st) (mapOpt (fun t => alFind st.t2i t)) segs
    show ((mapOpt (tokenizeSeg st) segs).map (joinToks eot)).bind
        (fun tokens => mapOpt (fun t => alFind st.t2i t) tokens) =
      (mapOpt (encodeSeg st) segs).bind (joinIdsWith (alFind st.t2i eot))
    rw [henc]
    cases hmt : mapOpt (tokenizeSeg st) segs with
    | none => rfl
    | some tokss =>
      exact mapOpt_joinToks (fun t => alFind st.t2i t) eot tokss

/-- The demonstration marker `"<|endoftext|>"`. -/
def eotBytes : Str := [60, 124, 101, 110, 100, 111, 102, 116, 101, 120, 116, 124, 62]

/-- A small vocabulary over the letters of `"Hello"` / `"World"` and the
marker, with the literal byte tables. -/
def demoSt : St :=
  ⟨[], b2uLit, u2bLit,
   [([72], 0), ([101], 1), ([108], 2), ([111], 3), ([87], 4), ([114], 5), ([100], 6),
    (eotBytes, 7)],
   [(0, [72]), (1, [101]), (2, [108]), (3, [111]), (4, [87]), (5, [114]), (6, [100]),
    (7, eotBytes)]⟩

/-- ASCII byte strings decode to themselves. -/
theorem utf8_ascii (s : Str) (hs : ∀ b ∈ s, b ≤ 0x7f) : utf8ToWString s = some s := by
  conv_lhs => rw [← wstringToUTF8_ascii s hs]
  exact utf8ToWString_wstringToUTF8 s (fun c hc => Nat.le_trans (hs c hc) (by omega))

theorem demoSt_tokenize_hello :
    tokenizeSeg demoSt [72, 101, 108, 108, 111] = some [[72], [101], [108], [108], [111]] := by
  unfold tokenizeSeg
  rw [utf8_ascii [72, 101, 108, 108, 111] (by decide)]
  decide

theorem demoSt_tokenize_world :
    tokenizeSeg demoSt [87, 111, 114, 108, 100] = some [[87], [111], [114], [108], [100]] := by
  unfold tokenizeSeg
  rw [utf8_ascii [87, 111, 114, 108, 100] (by decide)]
  decide

/-- The spec's example, evaluated: `encode("Hello<|endoftext|>World")` is the
ids of `"Hello"`, the single marker id, then the ids of `"World"`. -/
theorem demoSt_encode_hello_world :
    encode demoSt ([72, 101, 108, 108, 111] ++ eotBytes ++ [87, 111, 114, 108, 100])
      eotBytes = some [0, 1, 2, 2, 3, 7, 4, 3, 5, 2, 6] := by
  unfold encode encodeTokens
  have hsp : splitLoop
      (List.length ([72, 101, 108, 108, 111] ++ eotBytes ++ [87, 111, 114, 108, 100]) + 1)
      ([72, 101, 108, 108, 111] ++ eotBytes ++ [87, 111, 114, 108, 100]) eotBytes =
      some [[72, 101, 108, 108, 111], [87, 111, 114, 108, 100]] := by decide
  rw [hsp]
  show (Option.map (joinToks eotBytes)
      (mapOpt (tokenizeSeg demoSt) [[72, 101, 108, 108, 111], [87, 111, 114, 108, 100]])).bind
    (fun tokens => mapOpt (fun t => alFind demoSt.t2i t) tokens) =
    some [0, 1, 2, 2, 3, 7, 4, 3, 5, 2, 6]
  rw [mapOpt_cons (tokenizeSeg demoSt) [72, 101, 108, 108, 111] [[87, 111, 114, 108, 100]],
    demoSt_tokenize_hello,
    mapOpt_cons (tokenizeSeg demoSt) [87, 111, 114, 108, 100] [],
    demoSt_tokenize_world]
  decide

theorem C8_encode_splits_on_marker_witness :
    eotBytes ≠ [] ∧
    encode demoSt ([72, 101, 108, 108, 111] ++ eotBytes ++ [87, 111, 114, 108, 100])
        eotBytes =
      (splitLoop (([72, 101, 108, 108, 111] ++ eotBytes ++
          [87, 111, 114, 108, 100]).length + 1)
        ([72, 101, 108, 108, 111] ++ eotBytes ++ [87, 111, 114, 108, 100])
        eotBytes).bind fun segs =>
        (mapOpt (encodeSeg demoSt) segs).bind (joinIdsWith (alFind demoSt.t2i eotBytes)) :=
  ⟨by decide,
   C8_encode_splits_on_marker demoSt eotBytes (by decide)
     ([72, 101, 108, 108, 111] ++ eotBytes ++ [87, 111, 114, 108, 100])⟩


/-! ## Claim C1: the round trip -/

/-- The naive merge loop only ever concatenates adjacent symbols: the
character content is preserved. -/
theorem naiveLoop_flatten (ranks : Ranks) : ∀ (fuel : ℕ) (s : List WStr),
    (naiveLoop ranks fuel s).flatten = s.flatten := by
  intro fuel
  induction fuel with
  | zero => intro s; rfl
  | succ fuel ih =>
    intro s
    cases hsel : selectSlot ((getPairsS s).map (rankOf ranks)) with
    | none => simp [naiveLoop, hsel]
    | some k =>
      have hk : k < (getPairsS s).length := by
        have h1 := selectSlot_lt ((getPairsS s).map (rankOf ranks)) k hsel
        rw [List.length_map] at h1
        exact h1
      have hk1 : k + 1 < s.length := by
        have h2 := getPairsS_length s
        omega
      simp only [naiveLoop, hsel]
      rw [ih (mergeAt s k), mergeAt_flatten s k hk1]

/-- The symbols `BPE::bpe` returns concatenate back to the token. -/
theorem bpe_flatten (ranks : Ranks) (token : WStr) (hne : token ≠ []) :
    (bpe ranks token).flatten = token := by
  rw [bpe_eq_naive ranks token hne]
  rw [show naiveBPE ranks (token.map fun c => [c]) =
      naiveLoop ranks (token.map fun c => [c]).length (token.map fun c => [c]) from rfl]
  rw [naiveLoop_flatten, flatten_map_singleton]

theorem mapOpt_congr_some {α β : Type} (f : α → Option β) (g : α → β) :
    ∀ l : List α, (∀ a ∈ l, f a = some (g a)) → mapOpt f l = some (l.map g) := by
  intro l
  induction l with
  | nil => intro _; rfl
  | cons a t ih =>
    intro h
    rw [mapOpt_cons, h a (List.mem_cons_self a t),
      ih (fun x hx => h x (List.mem_cons_of_mem a hx))]
    rfl

theorem mapOpt_roundtrip {α β : Type} (f : α → Option β) (g : β → Option α)
    (hfg : ∀ a b, f a = some b → g b = some a) :
    ∀ (l : List α) (r : List β), mapOpt f l = some r → mapOpt g r = some l := by
  intro l
  induction l with
  | nil =>
    intro r h
    have hh : some ([] : List β) = some r := h
    injection hh with h3
    subst h3
    rfl
  | cons a t ih =>
    intro r h
    rw [mapOpt_cons] at h
    cases hf : f a with
    | none => rw [hf] at h; simp at h
    | some b =>
      rw [hf] at h
      cases ht : mapOpt f t with
      | none => rw [ht] at h; simp at h
      | some rt =>
        rw [ht] at h
        have hh : some (b :: rt) = some r := h
        injection hh with h3
        subst h3
        rw [mapOpt_cons, hfg a b hf, ih rt ht]
        rfl

theorem mapOpt_map_eq {α β γ : Type} (f : α → Option β) (g : β → γ) (h2 : α → γ) :
    ∀ (l : List α) (r : List β),
    (∀ a ∈ l, ∀ b, f a = some b → g b = h2 a) →
    mapOpt f l = some r → r.map g = l.map h2 := by
  intro l
  induction l with
  | nil =>
    intro r _ h
    have hh : some ([] : List β) = some r := h
    injection hh with h3
    subst h3
    rfl
  | cons a t ih =>
    intro r hc h
    rw [mapOpt_cons] at h
    cases hf : f a with
    | none => rw [hf] at h; simp at h
    | some b =>
      rw [hf] at h
      cases ht : mapOpt f t with
      | none => rw [ht] at h; simp at h
      | some rt =>
        rw [ht] at h
        have hh : some (b :: rt) = some r := h
        injection hh with h3
        subst h3
        rw [List.map_cons, List.map_cons, hc a (List.mem_cons_self a t) b hf,
          ih rt (fun x hx bx hbx => hc x (List.mem_cons_of_mem a hx) bx hbx) ht]

/-- Flattening the joined token stream joins the per-segment flattenings. -/
theorem joinToks_flatten (eot : Str) : ∀ tokss : List (List Str),
    (joinToks eot tokss).flatten = joinStrs eot (tokss.map List.flatten) := by
  intro tokss
  induction tokss with
  | nil => rfl
  | cons t rest ih =>
    cases rest with
    | nil => rfl
    | cons t2 rest2 =>
      rw [show joinToks eot (t :: t2 :: rest2) = t ++ eot :: joinToks eot (t2 :: rest2)
        from rfl]
      rw [List.flatten_append, List.flatten_cons, ih]
      rw [show joinStrs eot ((t :: t2 :: rest2).map List.flatten) =
          t.flatten ++ eot ++ joinStrs eot ((t2 :: rest2).map List.flatten) from rfl]
      rw [List.append_assoc]

/-- On a printable-ASCII segment without `_`, whatever token list
`BPE::tokenize` produces concatenates back to the segment (each byte is
mapped to itself, merges only concatenate, and the pretokens cover the
segment). -/
theorem tokenizeSeg_flatten (st : St) (seg : Str) (toks : List Str)
    (hseg : ∀ b ∈ seg, 33 ≤ b ∧ b ≤ 126 ∧ b ≠ 95)
    (HB : ∀ b : ℕ, 33 ≤ b → b ≤ 126 → alFind st.b2u b = some b)
    (h : tokenizeSeg st seg = some toks) :
    toks.flatten = seg := by
  unfold tokenizeSeg at h
  have hascii : ∀ b ∈ seg, b ≤ 0x7f := fun b hb => by have := hseg b hb; omega
  rw [utf8_ascii seg hascii] at h
  have h95 : ∀ c ∈ seg, c ≠ 95 := fun c hc => (hseg c hc).2.2
  have hflat := pretokenize_flatten seg h95
  have h2 : (mapOpt (fun wtoken =>
      (byteEncodeToken st.b2u (wstringToUTF8 wtoken)).map fun enc =>
        (bpe st.bpeRanks enc).map wstringToUTF8) (pretokenize seg)).map List.flatten =
      some toks := h
  have hptok : ∀ p ∈ pretokenize seg,
      (byteEncodeToken st.b2u (wstringToUTF8 p)).map (fun enc =>
        (bpe st.bpeRanks enc).map wstringToUTF8) = some (bpe st.bpeRanks p) := by
    intro p hp
    have hpsub : ∀ c ∈ p, c ∈ seg := by
      intro c hc
      rw [← hflat]
      exact List.mem_flatten.mpr ⟨p, hp, hc⟩
    have hpa : ∀ c ∈ p, c ≤ 0x7f := fun c hc => hascii c (hpsub c hc)
    have hpne : p ≠ [] := pretokenize_ne_nil seg p hp
    rw [wstringToUTF8_ascii p hpa]
    have hbenc : byteEncodeToken st.b2u p = some p := by
      unfold byteEncodeToken
      rw [mapOpt_congr_some (fun c => alFind st.b2u (c % 256)) (fun c => c) p (by
        intro c hc
        obtain ⟨ha, hb, _⟩ := hseg c (hpsub c hc)
        show alFind st.b2u (c % 256) = some c
        rw [Nat.mod_eq_of_lt (show c < 256 by omega)]
        exact HB c ha hb), List.map_id']
    rw [hbenc, Option.map_some']
    have hsymb : (bpe st.bpeRanks p).map wstringToUTF8 = bpe st.bpeRanks p := by
      have hbf := bpe_flatten st.bpeRanks p hpne
      have hsy : ∀ w ∈ bpe st.bpeRanks p, wstringToUTF8 w = w := by
        intro w hw
        apply wstringToUTF8_ascii
        intro b hb
        apply hpa
        rw [← hbf]
        exact List.mem_flatten.mpr ⟨w, hw, hb⟩
      rw [List.map_congr_left hsy, List.map_id']
    rw [hsymb]
  have hcomputed : mapOpt (fun wtoken =>
      (byteEncodeToken st.b2u (wstringToUTF8 wtoken)).map fun enc =>
        (bpe st.bpeRanks enc).map wstringToUTF8) (pretokenize seg) =
      some ((pretokenize seg).map fun p => bpe st.bpeRanks p) :=
    mapOpt_congr_some _ _ (pretokenize seg) hptok
  rw [hcomputed, Option.map_some'] at h2
  injection h2 with h3
  subst h3
  have hcollapse : ∀ L : List WStr, (∀ p ∈ L, p ≠ []) →
      ((L.map fun p => bpe st.bpeRanks p).flatten).flatten = L.flatten := by
    intro L
    induction L with
    | nil => intro _; rfl
    | cons p T ih =>
      intro hL
      rw [List.map_cons, List.flatten_cons, List.flatten_append,
        bpe_flatten st.bpeRanks p (hL p (List.mem_cons_self p T)),
        ih (fun q hq => hL q (List.mem_cons_of_mem p hq)), List.flatten_cons]
  conv_rhs => rw [← hflat]
  exact hcollapse (pretokenize seg) (pretokenize_ne_nil seg)


/-- C1 counterexample: the text `"_"` is silently skipped by the
pretokenizer, so `encode` succeeds with NO tokens (all of them, vacuously,
in the vocabulary) and the round trip returns the empty string, not
`"_"`. -/
theorem C1_underscore_breaks_round_trip :
    encode ⟨[], [], [], [], []⟩ [95] [60] = some [] ∧
    decode ⟨[], [], [], [], []⟩ [] = some [] ∧ ([95] : Str) ≠ [] := by
  refine ⟨?_, ?_, by decide⟩
  · unfold encode encodeTokens
    have hsp : splitLoop (List.length ([95] : Str) + 1) [95] [60] = some [[95]] := by
      decide
    rw [hsp]
    show ((mapOpt (tokenizeSeg ⟨[], [], [], [], []⟩) [[95]]).map (joinToks [60])).bind
      (fun tokens => mapOpt (fun t => alFind (⟨[], [], [], [], []⟩ : St).t2i t) tokens) =
      some []
    have htk : tokenizeSeg ⟨[], [], [], [], []⟩ [95] = some [] := by
      unfold tokenizeSeg
      rw [utf8_ascii [95] (by decide)]
      decide
    rw [mapOpt_cons (tokenizeSeg ⟨[], [], [], [], []⟩) [95] [], htk]
    rfl
  · unfold decode
    show (match utf8ToWString (([] : List Str).flatten) with
          | none => none
          | some wstr => mapOpt (fun c => alFind (⟨[], [], [], [], []⟩ : St).u2b c) wstr) =
      some []
    rw [show (([] : List Str)).flatten = ([] : Str) from rfl, utf8_ascii [] (by decide)]
    rfl

theorem alFind_some_mem {α β : Type} [DecidableEq α] :
    ∀ (m : List (α × β)) (a : α) (v : β), alFind m a = some v → (a, v) ∈ m := by
  intro m
  induction m with
  | nil => intro a v h; cases h
  | cons p t ih =>
    intro a v h
    obtain ⟨k, w⟩ := p
    rw [alFind_cons] at h
    by_cases hk : k = a
    · rw [if_pos hk] at h
      injection h with h1
      subst hk
      subst h1
      exact List.mem_cons_self _ _
    · rw [if_neg hk] at h
      exact List.mem_cons_of_mem _ (ih a v h)

theorem demoSt_consistent :
    ∀ t id, alFind demoSt.t2i t = some id → alFind demoSt.i2t id = some t := by
  intro t id h
  have hmem : (t, id) ∈ ([([72], 0), ([101], 1), ([108], 2), ([111], 3), ([87], 4),
      ([114], 5), ([100], 6), (eotBytes, 7)] : List (Str × ℤ)) :=
    alFind_some_mem demoSt.t2i t id h
  simp only [List.mem_cons, List.not_mem_nil, or_false] at hmem
  rcases hmem with h1 | h1 | h1 | h1 | h1 | h1 | h1 | h1 <;>
    (injection h1 with ha hb; subst ha; subst hb; decide)

theorem demoSt_encode_hello :
    encode demoSt [72, 101, 108, 108, 111] eotBytes = some [0, 1, 2, 2, 3] := by
  unfold encode encodeTokens
  have hsp : splitLoop (List.length ([72, 101, 108, 108, 111] : Str) + 1)
      [72, 101, 108, 108, 111] eotBytes = some [[72, 101, 108, 108, 111]] := by decide
  rw [hsp]
  show (Option.map (joinToks eotBytes)
      (mapOpt (tokenizeSeg demoSt) [[72, 101, 108, 108, 111]])).bind
    (fun tokens => mapOpt (fun t => alFind demoSt.t2i t) tokens) = some [0, 1, 2, 2, 3]
  rw [mapOpt_cons (tokenizeSeg demoSt) [72, 101, 108, 108, 111] [], demoSt_tokenize_hello]
  decide

/-! ### The general round trip: arbitrary canonically-encoded text -/

/-- The UTF-8 encoding of a nonempty scalar-value string is nonempty. -/
theorem wstringToUTF8_ne_nil (p : WStr) (hne : p ≠ []) (hc : ∀ c ∈ p, c ≤ 0x10ffff) :
    wstringToUTF8 p ≠ [] := by
  cases p with
  | nil => exact absurd rfl hne
  | cons c t =>
    rw [show (c :: t : WStr) = [c] ++ t from rfl, wstringToUTF8_append]
    intro h0
    rcases List.append_eq_nil.mp h0 with ⟨h1, _⟩
    exact wstringToUTF8_single_ne_nil c (hc c (by simp)) h1

/-- Encoding a concatenation of strings is the concatenation of encodings. -/
theorem wstringToUTF8_flatten : ∀ L : List WStr,
    wstringToUTF8 L.flatten = (L.map wstringToUTF8).flatten := by
  intro L
  induction L with
  | nil => rfl
  | cons w T ih =>
    rw [List.flatten_cons, wstringToUTF8_append, ih, List.map_cons, List.flatten_cons]

theorem mapOpt_length {α β : Type} (f : α → Option β) :
    ∀ (l : List α) (r : List β), mapOpt f l = some r → r.length = l.length := by
  intro l
  induction l with
  | nil =>
    intro r h
    have hh : some ([] : List β) = some r := h
    injection hh with h3
    subst h3
    rfl
  | cons a t ih =>
    intro r h
    rw [mapOpt_cons] at h
    cases hf : f a with
    | none => rw [hf] at h; simp at h
    | some b =>
      rw [hf] at h
      cases ht : mapOpt f t with
      | none => rw [ht] at h; simp at h
      | some rt =>
        rw [ht] at h
        have hh : some (b :: rt) = some r := h
        injection hh with h3
        subst h3
        rw [List.length_cons, List.length_cons, ih rt ht]

theorem mapOpt_forall₂ {α β : Type} (f : α → Option β) :
    ∀ (l : List α) (r : List β), mapOpt f l = some r →
    List.Forall₂ (fun a b => f a = some b) l r := by
  intro l
  induction l with
  | nil =>
    intro r h
    have hh : some ([] : List β) = some r := h
    injection hh with h3
    subst h3
    exact List.Forall₂.nil
  | cons a t ih =>
    intro r h
    rw [mapOpt_cons] at h
    cases hf : f a with
    | none => rw [hf] at h; simp at h
    | some b =>
      rw [hf] at h
      cases ht : mapOpt f t with
      | none => rw [ht] at h; simp at h
      | some rt =>
        rw [ht] at h
        have hh : some (b :: rt) = some r := h
        injection hh with h3
        subst h3
        exact List.Forall₂.cons hf (ih rt ht)

theorem mapOpt_append_some {α β : Type} (f : α → Option β) (l₁ l₂ : List α)
    (r₁ r₂ : List β) (h1 : mapOpt f l₁ = some r₁) (h2 : mapOpt f l₂ = some r₂) :
    mapOpt f (l₁ ++ l₂) = some (r₁ ++ r₂) := by
  rw [mapOpt_append, h1, h2]
  rfl

/-- Prepending an ASCII chunk to a byte stream decodes chunk-first. -/
theorem utf8_ascii_chunk (eot : Str) (hea : ∀ b ∈ eot, b ≤ 0x7f) (B : Str) :
    utf8ToWString (eot ++ B) = (utf8ToWString B).map (eot ++ ·) := by
  have h := utf8ToWString_enc_append eot
    (fun c hc => Nat.le_trans (hea c hc) (by omega)) B
  rw [wstringToUTF8_ascii eot hea] at h
  exact h

/-- `m_b2u`-encoding a byte string is inverted pointwise by `m_u2b`, given
the byte ↔ codepoint round trip the constructed tables satisfy. -/
theorem byteEncode_decodes (st : St)
    (HBU : ∀ b : ℕ, b < 256 → ∃ u, alFind st.b2u b = some u ∧ u ≤ 0x10ffff ∧
      alFind st.u2b u = some b) :
    ∀ (bp ep : Str), (∀ b ∈ bp, b < 256) →
    byteEncodeToken st.b2u bp = some ep →
    (∀ c ∈ ep, c ≤ 0x10ffff) ∧ mapOpt (fun c => alFind st.u2b c) ep = some bp := by
  intro bp
  induction bp with
  | nil =>
    intro ep _ h
    have hh : some ([] : WStr) = some ep := h
    injection hh with h3
    subst h3
    exact ⟨by simp, rfl⟩
  | cons b t ih =>
    intro ep hlt h
    have h2 : mapOpt (fun c => alFind st.b2u (c % 256)) (b :: t) = some ep := h
    rw [mapOpt_cons] at h2
    cases hfb : alFind st.b2u (b % 256) with
    | none => rw [hfb] at h2; simp at h2
    | some c =>
      rw [hfb] at h2
      cases hft : mapOpt (fun x => alFind st.b2u (x % 256)) t with
      | none => rw [hft] at h2; simp at h2
      | some et =>
        rw [hft] at h2
        have hh : some (c :: et) = some ep := h2
        injection hh with h3
        subst h3
        have hb256 : b < 256 := hlt b (List.mem_cons_self b t)
        rw [Nat.mod_eq_of_lt hb256] at hfb
        obtain ⟨u, hu, hule, hub⟩ := HBU b hb256
        have hcu : c = u := Option.some.inj (hfb.symm.trans hu)
        rw [← hcu] at hule hub
        obtain ⟨htc, htm⟩ := ih et (fun x hx => hlt x (List.mem_cons_of_mem b hx)) hft
        refine ⟨?_, ?_⟩
        · intro x hx
          rcases List.mem_cons.mp hx with h5 | h5
          · subst h5
            exact hule
          · exact htc x h5
        · rw [mapOpt_cons, hub, htm]
          rfl

/-- Across a pretoken list, the byte-encoded symbols flatten to one encoded
codepoint string that `m_u2b` maps back to the pretokens' bytes. -/
theorem seg_parts (st : St)
    (HBU : ∀ b : ℕ, b < 256 → ∃ u, alFind st.b2u b = some u ∧ u ≤ 0x10ffff ∧
      alFind st.u2b u = some b) :
    ∀ (ps : List WStr) (parts : List (List Str)),
    List.Forall₂ (fun p part =>
      ∃ ep, byteEncodeToken st.b2u (wstringToUTF8 p) = some ep ∧
        part = (bpe st.bpeRanks ep).map wstringToUTF8) ps parts →
    (∀ p ∈ ps, p ≠ [] ∧ ∀ c ∈ p, c ≤ 0x10ffff) →
    ∃ e : WStr, (∀ c ∈ e, c ≤ 0x10ffff) ∧
      (parts.flatten).flatten = wstringToUTF8 e ∧
      mapOpt (fun c => alFind st.u2b c) e = some (wstringToUTF8 ps.flatten) := by
  intro ps parts hf
  induction hf with
  | nil =>
    intro _
    exact ⟨[], by simp, rfl, rfl⟩
  | @cons p part ps' parts' hab htail ih =>
    intro hside
    obtain ⟨hpne, hpc⟩ := hside p (List.mem_cons_self p ps')
    obtain ⟨ep, hep, hpart⟩ := hab
    obtain ⟨e', he'c, he'flat, he'map⟩ := ih (fun q hq => hside q (List.mem_cons_of_mem p hq))
    have hbp256 : ∀ b ∈ wstringToUTF8 p, b < 256 := wstringToUTF8_lt_256 p
    have hbpne : wstringToUTF8 p ≠ [] := wstringToUTF8_ne_nil p hpne hpc
    obtain ⟨hepc, hepmap⟩ := byteEncode_decodes st HBU (wstringToUTF8 p) ep hbp256 hep
    have hepne : ep ≠ [] := by
      intro h0
      have hl := mapOpt_length (fun c => alFind st.b2u (c % 256)) (wstringToUTF8 p) ep hep
      rw [h0] at hl
      exact hbpne (List.length_eq_zero.mp hl.symm)
    have hpartflat : part.flatten = wstringToUTF8 ep := by
      rw [hpart, ← wstringToUTF8_flatten, bpe_flatten st.bpeRanks ep hepne]
    refine ⟨ep ++ e', ?_, ?_, ?_⟩
    · intro c hc
      rcases List.mem_append.mp hc with h | h
      · exact hepc c h
      · exact he'c c h
    · rw [List.flatten_cons, List.flatten_append, hpartflat, he'flat, wstringToUTF8_append]
    · rw [List.flatten_cons, wstringToUTF8_append]
      exact mapOpt_append_some _ _ _ _ _ hepmap he'map

/-- One segment through `BPE::tokenize`: the produced tokens flatten to the
UTF-8 encoding of a scalar codepoint string that `m_u2b` maps back to the
segment's bytes, provided the segment is canonically-encoded UTF-8 without
`_`. -/
theorem tokenizeSeg_decodes (st : St)
    (HBU : ∀ b : ℕ, b < 256 → ∃ u, alFind st.b2u b = some u ∧ u ≤ 0x10ffff ∧
      alFind st.u2b u = some b)
    (seg : Str) (toks : List Str)
    (hcanon : ∀ w, utf8ToWString seg = some w →
      wstringToUTF8 w = seg ∧ ∀ c ∈ w, c ≤ 0x10ffff ∧ c ≠ 95)
    (h : tokenizeSeg st seg = some toks) :
    ∃ e : WStr, (∀ c ∈ e, c ≤ 0x10ffff) ∧ toks.flatten = wstringToUTF8 e ∧
      mapOpt (fun c => alFind st.u2b c) e = some seg := by
  unfold tokenizeSeg at h
  cases hw : utf8ToWString seg with
  | none => rw [hw] at h; simp at h
  | some w =>
    rw [hw] at h
    obtain ⟨hcan, hchars⟩ := hcanon w hw
    have h95 : ∀ c ∈ w, c ≠ 95 := fun c hc => (hchars c hc).2
    have hflat := pretokenize_flatten w h95
    have h2 : (mapOpt (fun wtoken =>
        (byteEncodeToken st.b2u (wstringToUTF8 wtoken)).map fun enc =>
          (bpe st.bpeRanks enc).map wstringToUTF8) (pretokenize w)).map List.flatten =
        some toks := h
    cases hm : mapOpt (fun wtoken =>
        (byteEncodeToken st.b2u (wstringToUTF8 wtoken)).map fun enc =>
          (bpe st.bpeRanks enc).map wstringToUTF8) (pretokenize w) with
    | none => rw [hm] at h2; simp at h2
    | some parts =>
      rw [hm, Option.map_some'] at h2
      injection h2 with h3
      subst h3
      have hforall : List.Forall₂ (fun p part => ∃ ep,
          byteEncodeToken st.b2u (wstringToUTF8 p) = some ep ∧
            part = (bpe st.bpeRanks ep).map wstringToUTF8) (pretokenize w) parts := by
        refine List.Forall₂.imp ?_ (mapOpt_forall₂ _ (pretokenize w) parts hm)
        intro p part hfp
        cases hbe : byteEncodeToken st.b2u (wstringToUTF8 p) with
        | none => rw [hbe] at hfp; simp at hfp
        | some ep =>
          rw [hbe, Option.map_some'] at hfp
          injection hfp with h4
          exact ⟨ep, rfl, h4.symm⟩
      have hside : ∀ p ∈ pretokenize w, p ≠ [] ∧ ∀ c ∈ p, c ≤ 0x10ffff := by
        intro p hp
        refine ⟨pretokenize_ne_nil w p hp, ?_⟩
        intro c hc
        have hcw : c ∈ w := by
          rw [← hflat]
          exact List.mem_flatten.mpr ⟨p, hp, hc⟩
        exact (hchars c hcw).1
      obtain ⟨e, hec, heflat, hemap⟩ := seg_parts st HBU (pretokenize w) parts hforall hside
      refine ⟨e, hec, heflat, ?_⟩
      rw [hemap, hflat, hcan]

/-- Decoding the joined token stream: UTF-8 decoding recovers the encoded
codepoints segment by segment with the markers' own codepoints between, and
`m_u2b` maps them back to the segments joined by the marker. -/
theorem decode_stream (st : St) (eot : Str)
    (hEp : ∀ b ∈ eot, 33 ≤ b ∧ b ≤ 126)
    (hEu : ∀ b ∈ eot, alFind st.u2b b = some b) :
    ∀ (tokss : List (List Str)) (segs : List Str),
    List.Forall₂ (fun toks seg => ∃ e : WStr, (∀ c ∈ e, c ≤ 0x10ffff) ∧
      toks.flatten = wstringToUTF8 e ∧
      mapOpt (fun c => alFind st.u2b c) e = some seg) tokss segs →
    ∃ W : WStr, utf8ToWString (joinToks eot tokss).flatten = some W ∧
      mapOpt (fun c => alFind st.u2b c) W = some (joinStrs eot segs) := by
  intro tokss segs hf
  induction hf with
  | nil =>
    refine ⟨[], ?_, rfl⟩
    rw [show (joinToks eot []).flatten = ([] : Str) from rfl]
    exact utf8_ascii [] (fun b hb => absurd hb (List.not_mem_nil b))
  | @cons toks seg tokss' segs' hab htail ih =>
    obtain ⟨e, hec, heflat, hemap⟩ := hab
    cases tokss' with
    | nil =>
      cases htail
      refine ⟨e, ?_, ?_⟩
      · rw [show joinToks eot [toks] = toks from rfl, heflat]
        exact utf8ToWString_wstringToUTF8 e hec
      · rw [show joinStrs eot [seg] = seg from rfl]
        exact hemap
    | cons toks2 tokss'' =>
      obtain ⟨W', hW', hW'map⟩ := ih
      have hea : ∀ b ∈ eot, b ≤ 0x7f := fun b hb => by have := hEp b hb; omega
      cases hsegs : segs' with
      | nil =>
        have hlen := List.Forall₂.length_eq htail
        rw [hsegs] at hlen
        simp at hlen
      | cons seg2 segs'' =>
        rw [hsegs] at hW'map
        refine ⟨e ++ eot ++ W', ?_, ?_⟩
        · rw [show joinToks eot (toks :: toks2 :: tokss'') =
              toks ++ eot :: joinToks eot (toks2 :: tokss'') from rfl,
            List.flatten_append, List.flatten_cons, heflat,
            utf8ToWString_enc_append e hec, utf8_ascii_chunk eot hea, hW']
          rw [Option.map_some', Option.map_some', List.append_assoc]
        · have heot : mapOpt (fun c => alFind st.u2b c) eot = some eot := by
            rw [mapOpt_congr_some (fun c => alFind st.u2b c) (fun c => c) eot
              (fun b hb => by
                show alFind st.u2b b = some b
                exact hEu b hb), List.map_id']
          rw [show joinStrs eot (seg :: seg2 :: segs'') =
              seg ++ eot ++ joinStrs eot (seg2 :: segs'') from rfl]
          exact mapOpt_append_some _ _ _ _ _
            (mapOpt_append_some _ _ _ _ _ hemap heot) hW'map

set_option maxHeartbeats 1600000

/-- The literal byte tables satisfy the byte ↔ codepoint round trip on all
256 bytes, with every codepoint a Unicode scalar value. -/
theorem b2uLit_roundtrip : ∀ b : ℕ, b < 256 → ∃ u, alFind b2uLit b = some u ∧
    u ≤ 0x10ffff ∧ alFind u2bLit u = some b := by
  intro b hb
  have h := (by decide : ∀ x ∈ List.range 256,
      ((alFind b2uLit x).bind (fun u => if u ≤ 0x10ffff then alFind u2bLit u else none)) =
        some x) b (List.mem_range.mpr hb)
  cases hu : alFind b2uLit b with
  | none => rw [hu] at h; simp at h
  | some u =>
    rw [hu] at h
    have h2 : (if u ≤ 0x10ffff then alFind u2bLit u else none) = some b := h
    by_cases hle : u ≤ 0x10ffff
    · rw [if_pos hle] at h2
      exact ⟨u, rfl, hle, h2⟩
    · rw [if_neg hle] at h2
      exact Option.noConfusion h2

set_option maxHeartbeats 200000

/-- C1 (amended): for every text whose marker-delimited segments are
canonically-encoded UTF-8 — each segment decodes to Unicode scalar values
and re-encodes to itself — containing no `_` (codepoint 95), with a
nonempty printable-ASCII marker, byte maps that are a 256-byte round trip
(as the constructed tables are) and the identity on printable codepoints,
and mutually consistent vocabulary tables: whenever
`encode(text, eot) = ids` succeeds — i.e. every produced sub-word token is
present in the vocabulary — `decode(ids)` returns exactly the original
text.  This covers spaces, whitespace, punctuation and multi-byte
characters; only `_` (skipped by the pretokenizer) and non-canonical
encodings (re-encoded canonically by `tokenize`) are excluded, and both
exclusions are forced. -/
theorem C1_round_trip (st : St) (text eot : Str) (ids : List ℤ)
    (HV : ∀ segs, splitLoop (text.length + 1) text eot = some segs →
      ∀ seg ∈ segs, ∀ w, utf8ToWString seg = some w →
      wstringToUTF8 w = seg ∧ ∀ c ∈ w, c ≤ 0x10ffff ∧ c ≠ 95)
    (HE : eot ≠ [])
    (HEp : ∀ b ∈ eot, 33 ≤ b ∧ b ≤ 126)
    (HBU : ∀ b : ℕ, b < 256 → ∃ u, alFind st.b2u b = some u ∧ u ≤ 0x10ffff ∧
      alFind st.u2b u = some b)
    (HU : ∀ b : ℕ, 33 ≤ b → b ≤ 126 → alFind st.u2b b = some b)
    (HC : ∀ t id, alFind st.t2i t = some id → alFind st.i2t id = some t)
    (henc : encode st text eot = some ids) :
    decode st ids = some text := by
  unfold encode encodeTokens at henc
  cases hsp : splitLoop (text.length + 1) text eot with
  | none =>
    rw [hsp] at henc
    simp at henc
  | some segs =>
    rw [hsp] at henc
    have henc2 : ((mapOpt (tokenizeSeg st) segs).map (joinToks eot)).bind
        (fun tokens => mapOpt (fun t => alFind st.t2i t) tokens) = some ids := henc
    cases hmt : mapOpt (tokenizeSeg st) segs with
    | none => rw [hmt] at henc2; simp at henc2
    | some tokss =>
      rw [hmt] at henc2
      have henc3 : mapOpt (fun t => alFind st.t2i t) (joinToks eot tokss) = some ids :=
        henc2
      have hforall : List.Forall₂ (fun toks seg => ∃ e : WStr,
          (∀ c ∈ e, c ≤ 0x10ffff) ∧ toks.flatten = wstringToUTF8 e ∧
          mapOpt (fun c => alFind st.u2b c) e = some seg) tokss segs := by
        have hbuild : ∀ (ss : List Str) (ts : List (List Str)),
            List.Forall₂ (fun seg toks => tokenizeSeg st seg = some toks) ss ts →
            (∀ seg ∈ ss, ∀ w, utf8ToWString seg = some w →
              wstringToUTF8 w = seg ∧ ∀ c ∈ w, c ≤ 0x10ffff ∧ c ≠ 95) →
            List.Forall₂ (fun toks seg => ∃ e : WStr, (∀ c ∈ e, c ≤ 0x10ffff) ∧
              toks.flatten = wstringToUTF8 e ∧
              mapOpt (fun c => alFind st.u2b c) e = some seg) ts ss := by
          intro ss ts hf
          induction hf with
          | nil => intro _; exact List.Forall₂.nil
          | @cons seg toks ss' ts' hab htail ih =>
            intro hv
            exact List.Forall₂.cons
              (tokenizeSeg_decodes st HBU seg toks (hv seg (List.mem_cons_self seg ss')) hab)
              (ih (fun s hs => hv s (List.mem_cons_of_mem seg hs)))
        exact hbuild segs tokss (mapOpt_forall₂ (tokenizeSeg st) segs tokss hmt)
          (HV segs hsp)
      obtain ⟨W, hW, hWmap⟩ := decode_stream st eot HEp
        (fun b hb => HU b (HEp b hb).1 (HEp b hb).2) tokss segs hforall
      have hdec1 : mapOpt (fun id => alFind st.i2t id) ids =
          some (joinToks eot tokss) :=
        mapOpt_roundtrip (fun t => alFind st.t2i t) (fun id => alFind st.i2t id)
          (fun a b hab => HC a b hab) (joinToks eot tokss) ids henc3
      unfold decode
      rw [hdec1]
      show (match utf8ToWString (joinToks eot tokss).flatten with
            | none => none
            | some wstr => mapOpt (fun c => alFind st.u2b c) wstr) = some text
      rw [hW]
      show mapOpt (fun c => alFind st.u2b c) W = some text
      rw [hWmap, splitLoop_join eot (text.length + 1) text segs hsp]

/-- A vocabulary over the space-carrying token `"Ġa"` (codepoint 288, the
byte-map image of the space) and the letter `"a"`, with the literal byte
tables. -/
def spaceSt : St :=
  ⟨[], b2uLit, u2bLit, [([196, 160], 5), ([97], 6), (eotBytes, 7)],
   [(5, [196, 160]), (6, [97]), (7, eotBytes)]⟩

theorem spaceSt_consistent :
    ∀ t id, alFind spaceSt.t2i t = some id → alFind spaceSt.i2t id = some t := by
  intro t id h
  have hmem : (t, id) ∈ ([([196, 160], 5), ([97], 6), (eotBytes, 7)] : List (Str × ℤ)) :=
    alFind_some_mem spaceSt.t2i t id h
  simp only [List.mem_cons, List.not_mem_nil, or_false] at hmem
  rcases hmem with h1 | h1 | h1 <;>
    (injection h1 with ha hb; subst ha; subst hb; decide)

/-- `encode " a"`: the space byte 32 is mapped to codepoint 288 and merged
into the pretoken `" a"`, giving the two tokens `"Ġ"`, `"a"`. -/
theorem spaceSt_encode_space_a : encode spaceSt [32, 97] eotBytes = some [5, 6] := by
  unfold encode encodeTokens
  have hsp : splitLoop (List.length ([32, 97] : Str) + 1) [32, 97] eotBytes =
      some [[32, 97]] := by decide
  rw [hsp]
  show (Option.map (joinToks eotBytes) (mapOpt (tokenizeSeg spaceSt) [[32, 97]])).bind
    (fun tokens => mapOpt (fun t => alFind spaceSt.t2i t) tokens) = some [5, 6]
  have htk : tokenizeSeg spaceSt [32, 97] = some [[196, 160], [97]] := by
    unfold tokenizeSeg
    rw [utf8_ascii [32, 97] (by decide)]
    decide
  rw [mapOpt_cons (tokenizeSeg spaceSt) [32, 97] [], htk]
  decide

theorem C1_round_trip_witness :
    (eotBytes ≠ [] ∧ (∀ b ∈ eotBytes, 33 ≤ b ∧ b ≤ 126) ∧
      encode spaceSt [32, 97] eotBytes = some [5, 6]) ∧
    decode spaceSt [5, 6] = some [32, 97] :=
  ⟨⟨by decide, by decide, spaceSt_encode_space_a⟩,
   C1_round_trip spaceSt [32, 97] eotBytes [5, 6]
     (fun segs hs => by
       rw [show splitLoop (List.length ([32, 97] : Str) + 1) [32, 97] eotBytes =
           some [[32, 97]] from by decide] at hs
       injection hs with h1
       subst h1
       intro seg hseg w hw
       rw [List.mem_singleton] at hseg
       subst hseg
       rw [utf8_ascii [32, 97] (by decide)] at hw
       injection hw with h2
       subst h2
       exact ⟨by decide, by decide⟩)
     (by decide)
     (by decide)
     b2uLit_roundtrip
     (fun b h1 h2 => u2bLit_printable b (List.mem_range.mpr (by omega)) h1)
     spaceSt_consistent
     spaceSt_encode_space_a⟩

end BPE

